import Mathlib

/-!
Verification of the wksim spaced-repetition simulator.

This file gives a shallow embedding of the core of the program
(`src/model.rs`, `src/main.rs`): the spaced-repetition stage model, the
empirical review-outcome probability distribution with its shift-based
extrapolation, and the discrete-event simulation engine with its review
queue, unlocking logic and level gating.  Machine integers (`u8`, `u32`)
are modelled as `Nat`; timestamps (`chrono::DateTime`) as `Int` seconds;
Rust panics and `unwrap`/`expect`/`assert!` failures surface as `none` in
`Option`-valued translations.  The maps (`HashMap`) are modelled as
association lists with replace-on-insert semantics, and the
`BinaryHeap<(Reverse<u32>, SubjectID)>` as a list with an explicit
minimum-extraction function that mirrors the heap order (smallest step
first, largest subject id on ties).  The shared thread random generator
is modelled as an explicit stream `Nat → Nat` consulted at an index held
in the simulator state; `gen_range(0..total)` becomes reduction of a
stream value modulo `total`, and is undefined (a panic) when `total = 0`,
as in the `rand` crate.
-/

/-- Number of spaced-repetition stages (`NUM_STAGES` in `model.rs`).
Stages are modelled as natural numbers `0`..`9`:
0 = Initiate, 1-4 = Apprentice1-4, 5 = Guru1, 6 = Guru2, 7 = Master,
8 = Enlightened, 9 = Burned. -/
def NUM_STAGES : Nat := 10

/-- Maximum level (`MAX_LEVEL` in `model.rs`). -/
def MAX_LEVEL : Nat := 60

/-- The SRS variant (`Srs` in `model.rs`). -/
inductive Srs where
  | Normal
  | Accelerated
deriving Repr, DecidableEq

/-- The subject kind (`SubjectKind` in `model.rs`). -/
inductive SubjectKind where
  | Radical
  | Kanji
  | Vocabulary
deriving Repr, DecidableEq

/-- `Stage::is_passing` from `model.rs`: a stage is passing iff it is at
or beyond Guru1 (= 5). -/
def isPassing (stage : Nat) : Bool :=
  decide (5 ≤ stage)

/-- `Srs::hours_to_next_review` from `model.rs`.  Initiate (0) and
Burned (9) have no interval; Apprentice intervals depend on the variant;
Guru1 and above are variant independent. -/
def hoursToNextReview (srs : Srs) (stage : Nat) : Option Nat :=
  if stage = 1 then some (match srs with | .Normal => 4 | .Accelerated => 2)
  else if stage = 2 then some (match srs with | .Normal => 8 | .Accelerated => 4)
  else if stage = 3 then some (match srs with | .Normal => 23 | .Accelerated => 8)
  else if stage = 4 then some (match srs with | .Normal => 47 | .Accelerated => 23)
  else if stage = 5 then some 167
  else if stage = 6 then some 335
  else if stage = 7 then some 719
  else if stage = 8 then some 2879
  else none

/-- A historical review record (`Review` in `model.rs`). -/
structure Review where
  srs : Srs
  start_stage : Nat
  end_stage : Nat
deriving Repr, DecidableEq

/-- A curriculum subject (`Subject` in `model.rs`).  Subject ids
(`SubjectID`, a `u16`) are modelled as `Nat`. -/
structure Subject where
  id : Nat
  level : Nat
  kind : SubjectKind
  depends_on : List Nat
  depended_on_by : List Nat
  srs : Srs
deriving Repr, DecidableEq

/-- A current assignment record (`Assignment` in `model.rs` as consumed
by `database.rs`): the stage, and an absolute next-review timestamp or
`none`.  Timestamps are modelled as `Int` seconds. -/
structure Assignment where
  subject_id : Nat
  stage : Nat
  next_review_time : Option Int
deriving Repr, DecidableEq

/-- `StageProbabilityDistribution` from `main.rs`: a weighted bag of end
stages together with the cached total weight. -/
structure StageProbabilityDistribution where
  total : Nat
  stage_probs : List (Nat × Nat)
deriving Repr, DecidableEq

namespace StageProbabilityDistribution

/-- `StageProbabilityDistribution::new`: the total is the sum of the
bucket weights. -/
def new (stage_probs : List (Nat × Nat)) : StageProbabilityDistribution :=
  { total := (stage_probs.map (fun p => p.2)).sum, stage_probs := stage_probs }

/-- `StageProbabilityDistribution::is_empty`. -/
def isEmpty (d : StageProbabilityDistribution) : Bool :=
  decide (d.total = 0)

/-- The linear scan inside `StageProbabilityDistribution::sample`: find
the bucket containing offset `x`. -/
def scanProbs : List (Nat × Nat) → Nat → Option Nat
  | [], _ => none
  | (stage, n) :: rest, x => if x < n then some stage else scanProbs rest (x - n)

/-- `StageProbabilityDistribution::sample`.  The random draw
`gen_range(0..total)` is modelled by reducing the supplied stream value
`r` modulo `total`; on an empty range (`total = 0`) `gen_range` panics,
modelled by the outer `none`.  The inner `Option` is the function's own
return value. -/
def sample (d : StageProbabilityDistribution) (r : Nat) : Option (Option Nat) :=
  if d.total = 0 then none
  else some (scanProbs d.stage_probs (r % d.total))

/-- The stage clamp inside `StageProbabilityDistribution::shift`:
`new_stage.clamp(0, NUM_STAGES - 1)` on `isize`, converted back to a
stage. -/
def clampStage (z : Int) : Nat :=
  (max 0 (min z (NUM_STAGES - 1))).toNat

/-- `StageProbabilityDistribution::shift`: the same distribution with
every bucket stage shifted by `x` and clamped to the valid stage range;
weights and the total are copied unchanged. -/
def shift (d : StageProbabilityDistribution) (x : Int) : StageProbabilityDistribution :=
  { d with stage_probs := d.stage_probs.map (fun p => (clampStage ((p.1 : Int) + x), p.2)) }

end StageProbabilityDistribution

/-- One cell of the tally matrix built by `ReviewResultProbability::new`:
the number of historical reviews from `s` to `e`. -/
def tally (reviews : List Review) (s e : Nat) : Nat :=
  (reviews.filter (fun r => r.start_stage = s ∧ r.end_stage = e)).length

/-- The distribution built for start stage `s` directly from the tally
matrix row (before extrapolation): non-zero cells become weighted
buckets, in end-stage order. -/
def rawRow (reviews : List Review) (s : Nat) : StageProbabilityDistribution :=
  StageProbabilityDistribution.new
    ((List.range NUM_STAGES).filterMap (fun e =>
      if tally reviews s e > 0 then some (e, tally reviews s e) else none))

/-- Helper mirroring `Iterator::rposition` on the first `n` rows: the
largest index `< n` satisfying `p`. -/
def rposAux (p : Nat → Bool) : Nat → Option Nat
  | 0 => none
  | n + 1 => if p n then some n else rposAux p n

/-- The `last_non_empty_row` computation of `ReviewResultProbability::new`:
the largest start stage whose tally row is non-empty. -/
def lastNonEmptyRow (reviews : List Review) : Option Nat :=
  rposAux (fun s => !(rawRow reviews s).isEmpty) NUM_STAGES

/-- The per-start-stage distribution table after extrapolation, given the
last non-empty row `L`: rows strictly between `L` and the burned row are
the `L` row shifted by their offset from `L`; all other rows are the raw
tally rows. -/
def byPrevStage (reviews : List Review) (L : Nat) : Nat → StageProbabilityDistribution :=
  fun s =>
    if L < s ∧ s < NUM_STAGES - 1 then (rawRow reviews L).shift ((s - L : Nat) : Int)
    else rawRow reviews s

/-- `ReviewResultProbability::new`.  Returns `none` when a panic occurs:
either the `expect` when no tally row is non-empty, or the `unwrap` on
`split_last_mut` when the rows after the last non-empty one form an
empty slice (which happens exactly when the burned row itself is the
last non-empty row). -/
def reviewResultProbabilityNew (reviews : List Review) :
    Option (Nat → StageProbabilityDistribution) :=
  match lastNonEmptyRow reviews with
  | none => none
  | some L =>
    if L + 1 < NUM_STAGES then some (byPrevStage reviews L)
    else none

/-- `ReviewResultProbability::sample_for`: sample the distribution for
the given previous stage. -/
def sampleFor (prob : Nat → StageProbabilityDistribution) (prevStage : Nat) (r : Nat) :
    Option (Option Nat) :=
  (prob prevStage).sample r

/-- `SubjectState` from `main.rs`: the mutable per-subject record.
`next_review_time = none` means the subject is burned. -/
structure SubjectState where
  stage : Nat
  next_review_time : Option Nat
deriving Repr, DecidableEq

/-- `SubjectState::newly_unlocked`: Apprentice1, reviewable at the given
step. -/
def newlyUnlocked (curTime : Nat) : SubjectState :=
  { stage := 1, next_review_time := some curTime }

/-- The read-only inputs shared by all simulator operations: the outcome
probability table, the subject catalog (the `HashMap<SubjectID, Subject>`
modelled as a list of subjects keyed by their `id` field), and the random
stream. -/
structure Ctx where
  prob : Nat → StageProbabilityDistribution
  subjects : List Subject
  rng : Nat → Nat

/-- Catalog lookup (`self.subjects[&subject_id]`): the first catalog
entry with the given id, `none` when the id is dangling (a Rust panic at
the call sites). -/
def lookupSubject (ctx : Ctx) (sid : Nat) : Option Subject :=
  ctx.subjects.find? (fun su => su.id == sid)

/-- `subjects_with_level` from `main.rs`: ids of all catalog subjects at
the given level. -/
def subjectsWithLevel (subjects : List Subject) (level : Nat) : List Nat :=
  (subjects.filter (fun su => su.level == level)).map (fun su => su.id)

/-- Association-list lookup modelling `HashMap::get` on the
subject-state table. -/
def lookupState : List (Nat × SubjectState) → Nat → Option SubjectState
  | [], _ => none
  | (k, v) :: rest, s => if k = s then some v else lookupState rest s

/-- Association-list insert modelling `HashMap::insert`: replace the
existing binding or append a new one. -/
def insertState : List (Nat × SubjectState) → Nat → SubjectState → List (Nat × SubjectState)
  | [], s, v => [(s, v)]
  | (k, w) :: rest, s, v =>
    if k = s then (k, v) :: rest else (k, w) :: insertState rest s v

/-- `HashMap::contains_key` on the subject-state table. -/
def containsState (states : List (Nat × SubjectState)) (s : Nat) : Bool :=
  (lookupState states s).isSome

/-- The heap order of `BinaryHeap<(Reverse<u32>, SubjectID)>`: entry `a`
beats entry `b` when its step is smaller, or equal with a larger id. -/
def heapLt (a b : Nat × Nat) : Bool :=
  a.1 < b.1 || (a.1 == b.1 && b.2 < a.2)

/-- `BinaryHeap::peek` on the review queue: the entry that the heap
yields first. -/
def heapPeek : List (Nat × Nat) → Option (Nat × Nat)
  | [] => none
  | e :: rest =>
    some (match heapPeek rest with
      | none => e
      | some b => if heapLt e b then e else b)

/-- Remove one occurrence of an entry from the queue (the effect of
`BinaryHeap::pop` on the multiset of entries). -/
def removeEntry : List (Nat × Nat) → (Nat × Nat) → List (Nat × Nat)
  | [], _ => []
  | x :: xs, e => if x = e then xs else x :: removeEntry xs e

/-- Number of occurrences of an entry in the review queue. -/
def countEntry : List (Nat × Nat) → (Nat × Nat) → Nat
  | [], _ => 0
  | x :: xs, e => (if x = e then 1 else 0) + countEntry xs e

/-- The mutable simulator state (the cloneable part of `Simulator`).
`rng_idx` is the position in the random stream, modelling the shared
thread generator advancing on each draw. -/
structure SimState where
  cur_step : Nat
  subject_states : List (Nat × SubjectState)
  review_queue : List (Nat × Nat)
  cur_level : Nat
  cur_level_subjects : List Nat
  cur_level_kanji : List Nat
  rng_idx : Nat
deriving Repr, DecidableEq

/-- `Simulator::peek_available_review`: the queue front subject if its
step is due. -/
def peekAvailableReview (sim : SimState) : Option Nat :=
  match heapPeek sim.review_queue with
  | none => none
  | some (t, sid) => if t ≤ sim.cur_step then some sid else none

/-- `Simulator::pop_available_review`: like peek, but also removes the
entry from the queue. -/
def popAvailableReview (sim : SimState) : Option (Nat × SimState) :=
  match heapPeek sim.review_queue with
  | none => none
  | some e =>
    if e.1 ≤ sim.cur_step then
      some (e.2, { sim with review_queue := removeEntry sim.review_queue e })
    else none

/-- `Simulator::may_unlock`: the subject's level must not exceed the
current level and all prerequisites must already be unlocked.  `none`
models the panic on a dangling subject id. -/
def mayUnlock (ctx : Ctx) (sim : SimState) (sid : Nat) : Option Bool :=
  match lookupSubject ctx sid with
  | none => none
  | some su =>
    some (decide (su.level ≤ sim.cur_level) &&
      su.depends_on.all (fun d => containsState sim.subject_states d))

/-- Insert a newly unlocked subject, scheduled for the current step, and
queue it (the two statements performed at both unlock sites). -/
def unlockSubject (sim : SimState) (sid : Nat) : SimState :=
  { sim with
    subject_states := insertState sim.subject_states sid (newlyUnlocked sim.cur_step),
    review_queue := sim.review_queue ++ [(sim.cur_step, sid)] }

/-- The dependent-unlock scan of `Simulator::step`: for each dependent
that is not yet unlocked, unlock it when eligible. -/
def unlockDependents (ctx : Ctx) : SimState → List Nat → Option SimState
  | sim, [] => some sim
  | sim, d :: rest =>
    if containsState sim.subject_states d then unlockDependents ctx sim rest
    else
      match mayUnlock ctx sim d with
      | none => none
      | some true => unlockDependents ctx (unlockSubject sim d) rest
      | some false => unlockDependents ctx sim rest

/-- Store the sampled stage and reschedule or burn (the state and queue
updates between the sampling and the dependent scan of the inner loop of
`Simulator::step`): when the new stage has an interval, the subject is
rescheduled at `cur_step + interval` and requeued; when it has none (the
new stage is terminal), the subject's availability becomes permanently
`none` and no queue entry is added.  The random-stream index advances by
the one draw the sampling consumed. -/
def applyReviewResult (sim : SimState) (subject : Subject) (sid newStage : Nat) : SimState :=
  match hoursToNextReview subject.srs newStage with
  | some h =>
    { sim with
      rng_idx := sim.rng_idx + 1,
      subject_states :=
        insertState sim.subject_states sid ⟨newStage, some (sim.cur_step + h)⟩,
      review_queue := sim.review_queue ++ [(sim.cur_step + h, sid)] }
  | none =>
    { sim with
      rng_idx := sim.rng_idx + 1,
      subject_states := insertState sim.subject_states sid ⟨newStage, none⟩ }

/-- Process one popped review (the body of the inner loop of
`Simulator::step`): look up the subject and its state, sample a new
stage, reschedule or burn, and scan dependents on a non-passing to
passing transition.  `none` models the panics (dangling subject id,
state lookup `unwrap`, sampling `unwrap` and the `gen_range` panic). -/
def reviewSubject (ctx : Ctx) (sim : SimState) (sid : Nat) : Option SimState :=
  match lookupSubject ctx sid with
  | none => none
  | some subject =>
    match lookupState sim.subject_states sid with
    | none => none
    | some st =>
      match sampleFor ctx.prob st.stage (ctx.rng sim.rng_idx) with
      | none => none
      | some none => none
      | some (some newStage) =>
        if !isPassing st.stage && isPassing newStage then
          unlockDependents ctx (applyReviewResult sim subject sid newStage)
            subject.depended_on_by
        else some (applyReviewResult sim subject sid newStage)

/-- The counting loop of `Simulator::passed_current_level`. -/
def countPassed (states : List (Nat × SubjectState)) : List Nat → Nat
  | [] => 0
  | sid :: rest =>
    (match lookupState states sid with
      | some st => if isPassing st.stage then 1 else 0
      | none => 0) + countPassed states rest

/-- `Simulator::passed_current_level`: at least `floor(num_kanji * 9 / 10)`
of the current level's kanji are unlocked and passing. -/
def passedCurrentLevel (sim : SimState) : Bool :=
  decide ((sim.cur_level_kanji.length * 9) / 10 ≤
    countPassed sim.subject_states sim.cur_level_kanji)

/-- The unlock pass run after a level advance: try to unlock every
subject of the new level.  Unlike the dependent scan, it does not check
whether a subject is already unlocked before inserting.  The `getD
false` on `mayUnlock` is unreachable: the ids iterated here come from
the catalog itself, so the lookup inside `mayUnlock` cannot miss. -/
def levelUnlockPass (ctx : Ctx) : SimState → List Nat → SimState
  | sim, [] => sim
  | sim, sid :: rest =>
    if (mayUnlock ctx sim sid).getD false then
      levelUnlockPass ctx (unlockSubject sim sid) rest
    else levelUnlockPass ctx sim rest

/-- The level-completion check at the end of each outer iteration of
`Simulator::step`: when below the maximum level and the gate test
passes, advance one level, recompute the level subject lists, and run
the unlock pass. -/
def checkLevelUp (ctx : Ctx) (sim : SimState) : SimState :=
  if sim.cur_level < MAX_LEVEL && passedCurrentLevel sim then
    levelUnlockPass ctx
      { sim with
        cur_level := sim.cur_level + 1,
        cur_level_subjects := subjectsWithLevel ctx.subjects (sim.cur_level + 1),
        cur_level_kanji :=
          (subjectsWithLevel ctx.subjects (sim.cur_level + 1)).filter (fun sid =>
            match lookupSubject ctx sid with
            | some su => su.kind == SubjectKind.Kanji
            | none => false) }
      (subjectsWithLevel ctx.subjects (sim.cur_level + 1))
  else sim

/-- The fused loop of `Simulator::step`, fuel-indexed.  A `pop` success
is one inner-loop iteration; a `pop` failure ends the inner drain, runs
the level check, and re-enters the loop exactly when something is due
again (the outer `while` condition).  The outer `none` is fuel
exhaustion; `some none` is a panic inside the body; `some (some _)` is
normal completion with the state and the review count. -/
def stepLoop (ctx : Ctx) : Nat → SimState → Nat → Option (Option (SimState × Nat))
  | 0, _, _ => none
  | fuel + 1, sim, acc =>
    match popAvailableReview sim with
    | some (sid, sim1) =>
      match reviewSubject ctx sim1 sid with
      | none => some none
      | some sim2 => stepLoop ctx fuel sim2 (acc + 1)
    | none =>
      if (peekAvailableReview (checkLevelUp ctx sim)).isSome then
        stepLoop ctx fuel (checkLevelUp ctx sim) acc
      else some (some (checkLevelUp ctx sim, acc))

/-- `Simulator::step`: run the event loop (entered only when something
is due, exactly as the outer `while` does), then advance the step
counter by one and return the review count. -/
def stepFn (ctx : Ctx) (fuel : Nat) (sim : SimState) : Option (Option (SimState × Nat)) :=
  if (peekAvailableReview sim).isSome then
    match stepLoop ctx fuel sim 0 with
    | none => none
    | some none => some none
    | some (some (sim', n)) =>
      some (some ({ sim' with cur_step := sim'.cur_step + 1 }, n))
  else some (some ({ sim with cur_step := sim.cur_step + 1 }, 0))

/-- The minimum next-availability timestamp over all assignments (the
`next_review_time` query of the database wrapper, SQL `min` ignoring
absent values). -/
def minNextReview (assignments : List Assignment) : Option Int :=
  (assignments.filterMap (fun a => a.next_review_time)).foldl
    (fun acc t => match acc with | none => some t | some m => some (min m t)) none

/-- Conversion of one assignment into simulation state
(`Simulator::new`): with a timestamp the stage must not be Initiate and
the step offset is the clamped whole-hour distance from the base time;
without one the stage must be Initiate and is replaced by Apprentice1 at
step 0.  `none` models the two assertion failures. -/
def assignmentState (base : Int) (a : Assignment) : Option SubjectState :=
  match a.next_review_time with
  | some t =>
    if a.stage = 0 then none
    else some { stage := a.stage, next_review_time := some ((max ((t - base).tdiv 3600) 0).toNat) }
  | none =>
    if a.stage = 0 then some { stage := 1, next_review_time := some 0 }
    else none

/-- Build the initial subject-state table from the assignments
(`collect` into a `HashMap`: later duplicates replace earlier ones). -/
def buildStates (base : Int) :
    List Assignment → List (Nat × SubjectState) → Option (List (Nat × SubjectState))
  | [], acc => some acc
  | a :: rest, acc =>
    match assignmentState base a with
    | none => none
    | some st => buildStates base rest (insertState acc a.subject_id st)

/-- Maximum of a list of naturals, `none` on the empty list (the shape
of `Iterator::max`). -/
def listMax : List Nat → Option Nat
  | [] => none
  | x :: xs =>
    some (match listMax xs with
      | none => x
      | some m => max x m)

/-- The levels of all unlocked subjects, looked up in the catalog;
`none` models the panic on a dangling id. -/
def stateLevels (ctx : Ctx) : List (Nat × SubjectState) → Option (List Nat)
  | [] => some []
  | (s, _) :: rest =>
    match lookupSubject ctx s, stateLevels ctx rest with
    | some su, some ls => some (su.level :: ls)
    | _, _ => none

/-- `Simulator::new`: establish the hour-truncated time origin, convert
the assignments, build the review queue, and determine the current
level as the maximum level among unlocked subjects.  `none` models the
panics: the missing-minimum `expect`, the assignment-shape assertions,
the no-unlocked-subjects `expect`, and dangling catalog ids. -/
def simulatorNew (ctx : Ctx) (assignments : List Assignment) : Option SimState :=
  match minNextReview assignments with
  | none => none
  | some minT =>
    match buildStates (minT - minT % 3600) assignments [] with
    | none => none
    | some states =>
      match stateLevels ctx states with
      | none => none
      | some levels =>
        match listMax levels with
        | none => none
        | some lvl =>
          let subs := subjectsWithLevel ctx.subjects lvl
          some
            { cur_step := 0,
              subject_states := states,
              review_queue :=
                states.filterMap (fun p => p.2.next_review_time.map (fun t => (t, p.1))),
              cur_level := lvl,
              cur_level_subjects := subs,
              cur_level_kanji := subs.filter (fun sid =>
                match lookupSubject ctx sid with
                | some su => su.kind == SubjectKind.Kanji
                | none => false),
              rng_idx := 0 }

/-- Reachable simulator states: the result of a successful
initialization, or of any successful `step` from a reachable state. -/
inductive Reaches (ctx : Ctx) (assignments : List Assignment) : SimState → Prop
  | init : ∀ sim, simulatorNew ctx assignments = some sim → Reaches ctx assignments sim
  | next : ∀ sim fuel sim' n, Reaches ctx assignments sim →
      stepFn ctx fuel sim = some (some (sim', n)) → Reaches ctx assignments sim'

/-- The number of kanji tracked for the current level. -/
def numKanji (sim : SimState) : Nat :=
  sim.cur_level_kanji.length

/-- The number of current-level kanji whose unlocked state is at a
passing stage. -/
def numPassedKanji (sim : SimState) : Nat :=
  (sim.cur_level_kanji.filter (fun sid =>
    match lookupState sim.subject_states sid with
    | some st => isPassing st.stage
    | none => false)).length

/-! ### Basic lemmas about the probability model -/

theorem rposAux_some {p : Nat → Bool} :
    ∀ {n L : Nat}, rposAux p n = some L →
      p L = true ∧ L < n ∧ ∀ t, L < t → t < n → p t = false := by
  intro n
  induction n with
  | zero => intro L h; simp [rposAux] at h
  | succ n ih =>
    intro L h
    simp only [rposAux] at h
    by_cases hp : p n = true
    · simp [hp] at h
      subst h
      exact ⟨hp, Nat.lt_succ_self n, fun t ht1 ht2 => absurd ht2 (by omega)⟩
    · simp [Bool.not_eq_true] at hp
      simp [hp] at h
      obtain ⟨h1, h2, h3⟩ := ih h
      refine ⟨h1, by omega, fun t ht1 ht2 => ?_⟩
      rcases Nat.lt_or_ge t n with h' | h'
      · exact h3 t ht1 h'
      · have : t = n := by omega
        subst this; exact hp

theorem rposAux_none {p : Nat → Bool} :
    ∀ {n : Nat}, rposAux p n = none → ∀ t, t < n → p t = false := by
  intro n
  induction n with
  | zero => intro _ t ht; omega
  | succ n ih =>
    intro h t ht
    simp only [rposAux] at h
    by_cases hp : p n = true
    · simp [hp] at h
    · simp [Bool.not_eq_true] at hp
      simp [hp] at h
      rcases Nat.lt_or_ge t n with h' | h'
      · exact ih h t h'
      · have : t = n := by omega
        subst this; exact hp

theorem rposAux_isSome {p : Nat → Bool} {n t : Nat} (ht : t < n) (hp : p t = true) :
    (rposAux p n).isSome := by
  cases h : rposAux p n with
  | some L => simp
  | none => exact absurd (rposAux_none h t ht) (by simp [hp])

/-- Deconstruct a successful model construction. -/
theorem reviewResultProbabilityNew_some {reviews : List Review}
    {f : Nat → StageProbabilityDistribution}
    (hf : reviewResultProbabilityNew reviews = some f) :
    ∃ L, lastNonEmptyRow reviews = some L ∧ L + 1 < NUM_STAGES ∧
      f = byPrevStage reviews L := by
  unfold reviewResultProbabilityNew at hf
  cases hL : lastNonEmptyRow reviews with
  | none => rw [hL] at hf; simp at hf
  | some L =>
    rw [hL] at hf
    by_cases hlt : L + 1 < NUM_STAGES
    · simp [hlt] at hf
      exact ⟨L, rfl, hlt, hf.symm⟩
    · simp [hlt] at hf

theorem clampStage_nat (a d : Nat) :
    StageProbabilityDistribution.clampStage ((a : Int) + (d : Int)) =
      min (a + d) (NUM_STAGES - 1) := by
  unfold StageProbabilityDistribution.clampStage NUM_STAGES
  omega

/-- The total of a freshly built distribution is the sum of its bucket
weights. -/
theorem total_eq_sum_new (l : List (Nat × Nat)) :
    (StageProbabilityDistribution.new l).total = (l.map (fun p => p.2)).sum := rfl

theorem shift_total (d : StageProbabilityDistribution) (x : Int) :
    (d.shift x).total = d.total := rfl

theorem shift_weights (d : StageProbabilityDistribution) (x : Int) :
    ((d.shift x).stage_probs.map (fun p => p.2)) = d.stage_probs.map (fun p => p.2) := by
  simp [StageProbabilityDistribution.shift]

/-- Every bucket of a raw tally row holds a valid stage. -/
theorem rawRow_stage_lt {reviews : List Review} {s e w : Nat}
    (h : (e, w) ∈ (rawRow reviews s).stage_probs) : e < NUM_STAGES := by
  unfold rawRow StageProbabilityDistribution.new at h
  simp only [List.mem_filterMap] at h
  obtain ⟨a, ha, hif⟩ := h
  by_cases hc : tally reviews s a > 0
  · simp [hc] at hif
    obtain ⟨he, _⟩ := hif
    subst he
    exact List.mem_range.mp ha
  · simp [hc] at hif

/-- The total of every raw tally row equals the sum of its weights. -/
theorem rawRow_total (reviews : List Review) (s : Nat) :
    ((rawRow reviews s).stage_probs.map (fun p => p.2)).sum = (rawRow reviews s).total := rfl

/-- Every constructed (raw or extrapolated) row has its total equal to
the sum of its bucket weights, and all its bucket stages valid. -/
theorem byPrevStage_wf (reviews : List Review) (L s : Nat) :
    ((byPrevStage reviews L s).stage_probs.map (fun p => p.2)).sum =
      (byPrevStage reviews L s).total ∧
    ∀ e w, (e, w) ∈ (byPrevStage reviews L s).stage_probs → e ≤ NUM_STAGES - 1 := by
  unfold byPrevStage
  by_cases hc : L < s ∧ s < NUM_STAGES - 1
  · rw [if_pos hc]
    constructor
    · rw [shift_weights, shift_total, rawRow_total]
    · intro e w hmem
      unfold StageProbabilityDistribution.shift at hmem
      simp only [List.mem_map] at hmem
      obtain ⟨p, _, hp⟩ := hmem
      have he : e = StageProbabilityDistribution.clampStage ((p.1 : Int) + ((s - L : Nat) : Int)) := by
        have := congrArg Prod.fst hp
        simp at this
        omega
      rw [he]
      unfold StageProbabilityDistribution.clampStage NUM_STAGES
      omega
  · rw [if_neg hc]
    refine ⟨rawRow_total reviews s, fun e w hmem => ?_⟩
    have := rawRow_stage_lt hmem
    omega

/-- The linear scan finds a bucket whenever the offset is below the
weight sum, and returns that bucket's stage. -/
theorem scanProbs_lt {l : List (Nat × Nat)} :
    ∀ {x : Nat}, x < (l.map (fun p => p.2)).sum →
      ∃ e w, StageProbabilityDistribution.scanProbs l x = some e ∧ (e, w) ∈ l := by
  induction l with
  | nil => intro x hx; simp at hx
  | cons hd tl ih =>
    intro x hx
    obtain ⟨s, n⟩ := hd
    simp only [StageProbabilityDistribution.scanProbs]
    by_cases hlt : x < n
    · exact ⟨s, n, by simp [hlt], by simp⟩
    · simp only [hlt, if_false]
      simp only [List.map_cons, List.sum_cons] at hx
      have hx' : x - n < (tl.map (fun p => p.2)).sum := by omega
      obtain ⟨e, w, h1, h2⟩ := ih hx'
      exact ⟨e, w, h1, by simp [h2]⟩

/-! ### Claim C1: extrapolated rows are shifted copies of the last
observed row -/

/-- C1 (confirmed).  For every start stage `S` strictly between the last
observed stage `L` and the terminal retired stage, the constructed
distribution for `S` is `L`'s distribution with each end stage replaced
by `end + (S - L)` clamped to `[0, NUM_STAGES - 1]`, with every bucket
weight and the total weight unchanged. -/
theorem extrapolated_row_is_shifted_last_row (reviews : List Review) (L S : Nat)
    (f : Nat → StageProbabilityDistribution)
    (hf : reviewResultProbabilityNew reviews = some f)
    (hL : lastNonEmptyRow reviews = some L)
    (h1 : L < S) (h2 : S < NUM_STAGES - 1) :
    (f S).total = (f L).total ∧
    (f S).stage_probs =
      (f L).stage_probs.map (fun p => (min (p.1 + (S - L)) (NUM_STAGES - 1), p.2)) := by
  obtain ⟨L', hL', _, hfeq⟩ := reviewResultProbabilityNew_some hf
  rw [hL] at hL'
  injection hL' with hLL
  subst hLL
  subst hfeq
  have hS : byPrevStage reviews L S = (rawRow reviews L).shift ((S - L : Nat) : Int) := by
    unfold byPrevStage
    simp [h1, h2]
  have hLid : byPrevStage reviews L L = rawRow reviews L := by
    unfold byPrevStage
    simp
  rw [hS, hLid]
  constructor
  · exact shift_total _ _
  · unfold StageProbabilityDistribution.shift
    simp only
    apply List.map_congr_left
    intro p _
    rw [clampStage_nat]

/-- A concrete review stream used by several witnesses: one historical
review from Initiate to Apprentice1. -/
def revs01 : List Review := [⟨Srs.Normal, 0, 1⟩]

/-- Witness for C1 at a concrete input: the last observed row is 0, and
row 5 is row 0 shifted by 5. -/
theorem extrapolated_row_is_shifted_last_row_witness :
    reviewResultProbabilityNew revs01 = some (byPrevStage revs01 0) ∧
    lastNonEmptyRow revs01 = some 0 ∧ 0 < 5 ∧ 5 < NUM_STAGES - 1 ∧
    ((byPrevStage revs01 0 5).total = (byPrevStage revs01 0 0).total ∧
      (byPrevStage revs01 0 5).stage_probs =
        (byPrevStage revs01 0 0).stage_probs.map
          (fun p => (min (p.1 + (5 - 0)) (NUM_STAGES - 1), p.2))) :=
  ⟨rfl, rfl, by decide, by decide,
    extrapolated_row_is_shifted_last_row revs01 0 5 (byPrevStage revs01 0) rfl rfl
      (by decide) (by decide)⟩

/-! ### Claim C4: when model construction aborts -/

/-- C4 counterexample: a single historical review starting at the
retired stage gives a non-empty tally row, yet construction aborts (the
`split_last_mut().unwrap()` on the empty slice of rows after the burned
row), contradicting the claim that construction completes whenever some
row is non-empty. -/
theorem model_construction_aborts_on_burned_row :
    (rawRow [⟨Srs.Normal, 9, 9⟩] 9).isEmpty = false ∧
    reviewResultProbabilityNew [⟨Srs.Normal, 9, 9⟩] = none :=
  ⟨by decide, rfl⟩

/-- C4 (amended).  Construction of the outcome probability model
completes exactly when some start stage has a non-empty tally row and
the terminal retired stage's row is empty; it aborts when there is no
historical data at all, and also when the retired row is the last
non-empty row. -/
theorem model_construction_success_characterization (reviews : List Review) :
    (reviewResultProbabilityNew reviews).isSome ↔
      ((∃ s, s < NUM_STAGES ∧ (rawRow reviews s).isEmpty = false) ∧
        (rawRow reviews (NUM_STAGES - 1)).isEmpty = true) := by
  unfold reviewResultProbabilityNew lastNonEmptyRow
  cases h : rposAux (fun s => !(rawRow reviews s).isEmpty) NUM_STAGES with
  | none =>
    constructor
    · intro hfalse; simp at hfalse
    · rintro ⟨⟨s, hs, hne⟩, _⟩
      have := rposAux_none h s hs
      simp [hne] at this
  | some L =>
    obtain ⟨hpL, hLlt, hafter⟩ := rposAux_some h
    simp only [Bool.not_eq_true'] at hpL
    by_cases hlt : L + 1 < NUM_STAGES
    · simp only [hlt, if_true]
      constructor
      · intro _
        refine ⟨⟨L, hLlt, hpL⟩, ?_⟩
        have h9 := hafter (NUM_STAGES - 1) (by omega) (by omega)
        simpa using h9
      · intro _
        simp
    · have hL9 : L = NUM_STAGES - 1 := by omega
      simp only [hlt, if_false]
      constructor
      · intro hfalse
        simp at hfalse
      · rintro ⟨_, hempty⟩
        rw [hL9] at hpL
        simp [hpL] at hempty

/-! ### Claim C3: sampling behaviour -/

/-- C3 counterexample: the constructed table's retired row is empty, and
sampling it aborts (the `gen_range` panic on an empty range, modelled by
`none`) instead of returning no result (`some none`). -/
theorem sample_empty_row_aborts :
    (byPrevStage revs01 0 9).isEmpty = true ∧
    sampleFor (byPrevStage revs01 0) 9 0 = none ∧
    sampleFor (byPrevStage revs01 0) 9 0 ≠ some none :=
  ⟨by decide, by decide, by decide⟩

/-- C3 (amended).  For every constructed table and start stage:
sampling an empty distribution aborts (the `gen_range` panic) rather
than returning no result, and sampling a non-empty distribution always
returns some end stage within the valid stage range. -/
theorem sample_for_in_range (reviews : List Review)
    (f : Nat → StageProbabilityDistribution)
    (hf : reviewResultProbabilityNew reviews = some f) (S r : Nat) :
    ((f S).isEmpty = true → sampleFor f S r = none) ∧
    ((f S).isEmpty = false →
      ∃ e, sampleFor f S r = some (some e) ∧ e ≤ NUM_STAGES - 1) := by
  obtain ⟨L, _, _, hfeq⟩ := reviewResultProbabilityNew_some hf
  subst hfeq
  obtain ⟨hsum, hbound⟩ := byPrevStage_wf reviews L S
  constructor
  · intro hempty
    unfold StageProbabilityDistribution.isEmpty at hempty
    simp only [decide_eq_true_eq] at hempty
    unfold sampleFor StageProbabilityDistribution.sample
    simp [hempty]
  · intro hne
    unfold StageProbabilityDistribution.isEmpty at hne
    simp only [decide_eq_false_iff_not] at hne
    unfold sampleFor StageProbabilityDistribution.sample
    simp only [hne, if_false]
    have hx : r % (byPrevStage reviews L S).total <
        ((byPrevStage reviews L S).stage_probs.map (fun p => p.2)).sum := by
      rw [hsum]
      exact Nat.mod_lt _ (Nat.pos_of_ne_zero hne)
    obtain ⟨e, w, hscan, hmem⟩ := scanProbs_lt hx
    exact ⟨e, by simp [hscan], hbound e w hmem⟩

/-- Witness for C3 at a concrete input: row 0 of the constructed table
is non-empty and sampling it returns a valid stage. -/
theorem sample_for_in_range_witness :
    reviewResultProbabilityNew revs01 = some (byPrevStage revs01 0) ∧
    (byPrevStage revs01 0 0).isEmpty = false ∧
    ∃ e, sampleFor (byPrevStage revs01 0) 0 0 = some (some e) ∧ e ≤ NUM_STAGES - 1 :=
  ⟨rfl, by decide,
    (sample_for_in_range revs01 (byPrevStage revs01 0) rfl 0 0).2 (by decide)⟩

/-! ### Claim C2: the level-gate threshold -/

/-- The fold in `passed_current_level` counts exactly the kanji whose
unlocked state is passing. -/
theorem countPassed_eq_filter_length (states : List (Nat × SubjectState)) :
    ∀ l : List Nat,
      countPassed states l =
        (l.filter (fun sid =>
          match lookupState states sid with
          | some st => isPassing st.stage
          | none => false)).length := by
  intro l
  induction l with
  | nil => rfl
  | cons hd tl ih =>
    simp only [countPassed, List.filter_cons]
    cases h : lookupState states hd with
    | none => simp [h, ih]
    | some st =>
      by_cases hp : isPassing st.stage
      · simp [h, hp, ih]
        omega
      · simp [h, hp, ih]

/-- C2 counterexample: a state with 11 current-level kanji of which 9
are unlocked and passing.  The gate test succeeds (floor semantics), but
`passed * 10 ≥ total * 9` fails, so the two formulas the claim equates
differ. -/
def simEleven : SimState :=
  { cur_step := 0,
    subject_states :=
      [(1, ⟨5, some 100⟩), (2, ⟨5, some 100⟩), (3, ⟨5, some 100⟩), (4, ⟨5, some 100⟩),
       (5, ⟨5, some 100⟩), (6, ⟨5, some 100⟩), (7, ⟨5, some 100⟩), (8, ⟨5, some 100⟩),
       (9, ⟨5, some 100⟩), (10, ⟨1, some 100⟩), (11, ⟨1, some 100⟩)],
    review_queue :=
      [(100, 1), (100, 2), (100, 3), (100, 4), (100, 5), (100, 6), (100, 7), (100, 8),
       (100, 9), (100, 10), (100, 11)],
    cur_level := 1,
    cur_level_subjects := [1, 2, 3, 4, 5, 6, 7, 8, 9, 10, 11],
    cur_level_kanji := [1, 2, 3, 4, 5, 6, 7, 8, 9, 10, 11],
    rng_idx := 0 }

/-- C2 counterexample theorem: with 11 kanji and 9 passing, the code's
gate test succeeds although `passed * 10 ≥ total * 9` does not hold. -/
theorem level_gate_test_counterexample :
    numKanji simEleven = 11 ∧ numPassedKanji simEleven = 9 ∧
    passedCurrentLevel simEleven = true ∧
    ¬(numPassedKanji simEleven * 10 ≥ numKanji simEleven * 9) :=
  ⟨by decide, by decide, by decide, by decide⟩

/-- C2 (amended).  The gate test succeeds exactly when the number of
current-level gating-kind subjects whose unlocked state is passing is at
least `floor(total * 9 / 10)`; in particular 10 gating subjects require
at least 9 passing, 11 require at least 9, and 20 require at least
18. -/
theorem level_gate_floor_threshold (sim : SimState) :
    (passedCurrentLevel sim = true ↔ (numKanji sim * 9) / 10 ≤ numPassedKanji sim) ∧
    (numKanji sim = 10 → (passedCurrentLevel sim = true ↔ 9 ≤ numPassedKanji sim)) ∧
    (numKanji sim = 11 → (passedCurrentLevel sim = true ↔ 9 ≤ numPassedKanji sim)) ∧
    (numKanji sim = 20 → (passedCurrentLevel sim = true ↔ 18 ≤ numPassedKanji sim)) := by
  have hmain : passedCurrentLevel sim = true ↔
      (numKanji sim * 9) / 10 ≤ numPassedKanji sim := by
    unfold passedCurrentLevel numKanji numPassedKanji
    rw [countPassed_eq_filter_length]
    simp
  refine ⟨hmain, fun h10 => ?_, fun h11 => ?_, fun h20 => ?_⟩
  · rw [hmain, h10]
  · rw [hmain, h11]
  · rw [hmain, h20]

/-- A state with 10 current-level kanji of which 9 are passing, used as
the concrete witness for the amended gate claim. -/
def simTen : SimState :=
  { simEleven with
    cur_level_subjects := [1, 2, 3, 4, 5, 6, 7, 8, 9, 10],
    cur_level_kanji := [1, 2, 3, 4, 5, 6, 7, 8, 9, 10] }

/-- Witness for C2 at a concrete input: with exactly 10 gating subjects
the gate requires at least 9 passing. -/
theorem level_gate_floor_threshold_witness :
    numKanji simTen = 10 ∧
    (passedCurrentLevel simTen = true ↔ 9 ≤ numPassedKanji simTen) :=
  ⟨by decide, (level_gate_floor_threshold simTen).2.1 (by decide)⟩

/-! ### Claim C9: assignment shape assertions -/

/-- A violating assignment makes `buildStates` abort. -/
theorem buildStates_none {base : Int} :
    ∀ (assignments : List Assignment) (acc : List (Nat × SubjectState))
      (a : Assignment), a ∈ assignments → assignmentState base a = none →
      buildStates base assignments acc = none := by
  intro assignments
  induction assignments with
  | nil => intro acc a ha; simp at ha
  | cons hd tl ih =>
    intro acc a ha hbad
    simp only [List.mem_cons] at ha
    rcases ha with ha | ha
    · subst ha
      simp [buildStates, hbad]
    · cases h : assignmentState base hd with
      | none => simp [buildStates, h]
      | some st =>
        simp only [buildStates, h]
        exact ih _ a ha hbad

/-- C9 (confirmed).  Initialization aborts whenever some assignment
violates the shape requirement: carrying a timestamp at the Initiate
stage, or carrying no timestamp at a stage other than Initiate. -/
theorem init_asserts_assignment_shape (ctx : Ctx) (assignments : List Assignment)
    (a : Assignment) (ha : a ∈ assignments)
    (hbad : (a.stage = 0 ∧ a.next_review_time ≠ none) ∨
      (a.stage ≠ 0 ∧ a.next_review_time = none)) :
    simulatorNew ctx assignments = none := by
  unfold simulatorNew
  cases hmin : minNextReview assignments with
  | none => rfl
  | some minT =>
    have hstate : assignmentState (minT - minT % 3600) a = none := by
      unfold assignmentState
      rcases hbad with ⟨h0, hsome⟩ | ⟨h0, hnone⟩
      · cases ht : a.next_review_time with
        | none => exact absurd ht hsome
        | some t => simp [h0]
      · rw [hnone]
        simp [h0]
    simp [buildStates_none assignments [] a ha hstate]

/-- Witness for C9 at a concrete input: an assignment at the Initiate
stage that carries a timestamp aborts initialization. -/
theorem init_asserts_assignment_shape_witness :
    (⟨1, 0, some 0⟩ : Assignment) ∈ [(⟨1, 0, some 0⟩ : Assignment)] ∧
    simulatorNew ⟨fun _ => StageProbabilityDistribution.new [], [], fun _ => 0⟩
      [⟨1, 0, some 0⟩] = none :=
  ⟨by simp,
    init_asserts_assignment_shape _ [⟨1, 0, some 0⟩] ⟨1, 0, some 0⟩ (by simp)
      (Or.inl ⟨rfl, by simp⟩)⟩

/-! ### Invariant machinery for the simulation engine -/

/-- The number of queue entries obligated by the subject-state table for
subject `s` at step `t`: one when `s` is unlocked with a scheduled
availability of exactly `t`, zero otherwise. -/
def schedSpec (states : List (Nat × SubjectState)) (s t : Nat) : Nat :=
  match lookupState states s with
  | some st => if st.next_review_time = some t then 1 else 0
  | none => 0

/-- The queue invariant: the multiset of review-queue entries is exactly
the scheduled availability of every unlocked subject (existence,
matching step, and uniqueness together). -/
def QInv (sim : SimState) : Prop :=
  ∀ t s, countEntry sim.review_queue (t, s) = schedSpec sim.subject_states s t

/-- The level invariant: every unlocked subject resolves in the catalog
and has level at most the current level. -/
def LevelInv (ctx : Ctx) (sim : SimState) : Prop :=
  ∀ s st, lookupState sim.subject_states s = some st →
    ∃ su, lookupSubject ctx s = some su ∧ su.level ≤ sim.cur_level

/-- The combined inductive invariant of reachable simulator states. -/
def Good (ctx : Ctx) (sim : SimState) : Prop :=
  QInv sim ∧ LevelInv ctx sim

/-- Number of queue entries already due at the current step. -/
def dueCount (sim : SimState) : Nat :=
  (sim.review_queue.filter (fun e => decide (e.1 ≤ sim.cur_step))).length

/-- Number of catalog subjects not yet unlocked. -/
def lockedCount (ctx : Ctx) (sim : SimState) : Nat :=
  (ctx.subjects.filter (fun su => !containsState sim.subject_states su.id)).length

theorem lookupState_insertState_self (states : List (Nat × SubjectState)) (s : Nat)
    (v : SubjectState) : lookupState (insertState states s v) s = some v := by
  induction states with
  | nil => simp [insertState, lookupState]
  | cons hd tl ih =>
    obtain ⟨k, w⟩ := hd
    by_cases hk : k = s
    · simp [insertState, hk, lookupState]
    · simp [insertState, hk, lookupState, ih]

theorem lookupState_insertState_ne (states : List (Nat × SubjectState)) {s x : Nat}
    (v : SubjectState) (hx : x ≠ s) :
    lookupState (insertState states s v) x = lookupState states x := by
  induction states with
  | nil =>
    simp only [insertState, lookupState]
    rw [if_neg (fun h : s = x => hx h.symm)]
  | cons hd tl ih =>
    obtain ⟨k, w⟩ := hd
    by_cases hk : k = s
    · subst hk
      simp only [insertState, if_pos rfl, lookupState]
      rw [if_neg (fun h : k = x => hx h.symm), if_neg (fun h : k = x => hx h.symm)]
    · simp only [insertState, if_neg hk, lookupState]
      by_cases hkx : k = x
      · rw [if_pos hkx, if_pos hkx]
      · rw [if_neg hkx, if_neg hkx, ih]

theorem containsState_insertState (states : List (Nat × SubjectState)) (s x : Nat)
    (v : SubjectState) :
    containsState (insertState states s v) x =
      (decide (x = s) || containsState states x) := by
  by_cases hx : x = s
  · subst hx
    simp [containsState, lookupState_insertState_self]
  · simp [containsState, lookupState_insertState_ne states v hx, hx]

theorem countEntry_append (q1 q2 : List (Nat × Nat)) (e : Nat × Nat) :
    countEntry (q1 ++ q2) e = countEntry q1 e + countEntry q2 e := by
  induction q1 with
  | nil => simp [countEntry]
  | cons hd tl ih => simp [countEntry, ih]; omega

theorem countEntry_singleton (x e : Nat × Nat) :
    countEntry [x] e = if x = e then 1 else 0 := by
  simp [countEntry]

theorem countEntry_pos_iff_mem (q : List (Nat × Nat)) (e : Nat × Nat) :
    1 ≤ countEntry q e ↔ e ∈ q := by
  induction q with
  | nil => simp [countEntry]
  | cons hd tl ih =>
    by_cases h : hd = e
    · subst h
      simp [countEntry]
    · simp [countEntry, h, ih, Ne.symm h]

theorem countEntry_removeEntry_self (q : List (Nat × Nat)) (e : Nat × Nat) :
    countEntry (removeEntry q e) e = countEntry q e - 1 := by
  induction q with
  | nil => simp [removeEntry, countEntry]
  | cons hd tl ih =>
    by_cases h : hd = e
    · subst h
      simp [removeEntry, countEntry]
    · simp [removeEntry, countEntry, h, ih]

theorem countEntry_removeEntry_ne (q : List (Nat × Nat)) {e x : Nat × Nat} (hx : x ≠ e) :
    countEntry (removeEntry q e) x = countEntry q x := by
  induction q with
  | nil => simp [removeEntry]
  | cons hd tl ih =>
    by_cases h : hd = e
    · subst h
      have h1 : removeEntry (hd :: tl) hd = tl := by simp [removeEntry]
      rw [h1]
      simp only [countEntry]
      rw [if_neg (fun h' : hd = x => hx h'.symm)]
      omega
    · simp [removeEntry, countEntry, h, ih]

theorem heapPeek_mem : ∀ {q : List (Nat × Nat)} {e : Nat × Nat}, heapPeek q = some e → e ∈ q := by
  intro q
  induction q with
  | nil => intro e h; simp [heapPeek] at h
  | cons hd tl ih =>
    intro e h
    simp only [heapPeek] at h
    cases hp : heapPeek tl with
    | none =>
      rw [hp] at h
      simp at h
      simp [h]
    | some b =>
      rw [hp] at h
      simp at h
      by_cases hlt : heapLt hd b = true
      · simp [hlt] at h
        simp [h]
      · simp [hlt] at h
        exact List.mem_cons_of_mem _ (ih (h ▸ hp))

theorem heapPeek_min : ∀ {q : List (Nat × Nat)} {b : Nat × Nat}, heapPeek q = some b →
    ∀ e ∈ q, b.1 ≤ e.1 := by
  intro q
  induction q with
  | nil => intro b h; simp [heapPeek] at h
  | cons hd tl ih =>
    intro b h e he
    simp only [heapPeek] at h
    cases hp : heapPeek tl with
    | none =>
      rw [hp] at h
      simp at h
      subst h
      rcases List.mem_cons.mp he with he | he
      · simp [he]
      · cases tl with
        | nil => simp at he
        | cons x xs => simp [heapPeek] at hp
    | some c =>
      rw [hp] at h
      simp at h
      rcases List.mem_cons.mp he with he | he
      · by_cases hlt : heapLt hd c = true
        · simp [hlt] at h
          subst h
          rw [he]
        · simp [hlt] at h
          subst h
          unfold heapLt at hlt
          simp at hlt
          rw [he]
          omega
      · have hce := ih hp e he
        by_cases hlt : heapLt hd c = true
        · simp [hlt] at h
          subst h
          unfold heapLt at hlt
          simp at hlt
          rcases hlt with hlt | hlt
          · omega
          · omega
        · simp [hlt] at h
          subst h
          exact hce

theorem heapPeek_none : ∀ {q : List (Nat × Nat)}, heapPeek q = none ↔ q = [] := by
  intro q
  cases q with
  | nil => simp [heapPeek]
  | cons hd tl => simp [heapPeek]

theorem filter_length_removeEntry {p : Nat × Nat → Bool} :
    ∀ {q : List (Nat × Nat)} {e : Nat × Nat}, e ∈ q → p e = true →
      ((removeEntry q e).filter p).length + 1 = (q.filter p).length := by
  intro q
  induction q with
  | nil => intro e hmem; simp at hmem
  | cons hd tl ih =>
    intro e hmem hp
    by_cases h : hd = e
    · subst h
      have h1 : removeEntry (hd :: tl) hd = tl := by simp [removeEntry]
      rw [h1, List.filter_cons, hp]
      simp
    · have h1 : removeEntry (hd :: tl) e = hd :: removeEntry tl e := by
        simp [removeEntry, h]
      have hmem' : e ∈ tl := by
        rcases List.mem_cons.mp hmem with h' | h'
        · exact absurd h'.symm h
        · exact h'
      rw [h1, List.filter_cons, List.filter_cons]
      by_cases hph : p hd = true
      · rw [if_pos hph, if_pos hph]
        simp only [List.length_cons]
        have := ih hmem' hp
        omega
      · rw [if_neg hph, if_neg hph]
        exact ih hmem' hp

theorem filter_length_append_single (q : List (Nat × Nat)) (x : Nat × Nat)
    (p : Nat × Nat → Bool) :
    ((q ++ [x]).filter p).length =
      (q.filter p).length + (if p x = true then 1 else 0) := by
  rw [List.filter_append]
  simp [List.filter_cons]
  cases h : p x
  · simp [h]
  · simp [h]

theorem filter_length_partition {α : Type} (l : List α) (p : α → Bool) :
    (l.filter p).length + (l.filter (fun x => !p x)).length = l.length := by
  induction l with
  | nil => simp
  | cons hd tl ih =>
    rw [List.filter_cons, List.filter_cons]
    by_cases h : p hd = true
    · rw [if_pos h, if_neg (by simp [h])]
      simp only [List.length_cons]
      omega
    · rw [if_neg h, if_pos (by simp [Bool.not_eq_true] at h; simp [h])]
      simp only [List.length_cons]
      omega

theorem lookupSubject_mem_id {ctx : Ctx} {s : Nat} {su : Subject}
    (h : lookupSubject ctx s = some su) : su ∈ ctx.subjects ∧ su.id = s := by
  unfold lookupSubject at h
  refine ⟨List.mem_of_find?_eq_some h, ?_⟩
  have := List.find?_some h
  simpa using this

theorem find?_id_unique :
    ∀ {l : List Subject}, (l.map (fun x => x.id)).Nodup →
      ∀ {su : Subject} {k : Nat}, su ∈ l → su.id = k →
        l.find? (fun z => z.id == k) = some su := by
  intro l
  induction l with
  | nil => intro _ su k hmem; simp at hmem
  | cons hd tl ih =>
    intro hnd su k hmem hid
    simp only [List.map_cons, List.nodup_cons] at hnd
    obtain ⟨hhd, hndtl⟩ := hnd
    by_cases hk : hd.id = k
    · have hsu : su = hd := by
        rcases List.mem_cons.mp hmem with h' | h'
        · exact h'
        · exfalso
          apply hhd
          rw [List.mem_map]
          exact ⟨su, h', by rw [hid, hk]⟩
      subst hsu
      simp [List.find?_cons, hk]
    · have hsu : su ∈ tl := by
        rcases List.mem_cons.mp hmem with h' | h'
        · exact absurd (h' ▸ hid) hk
        · exact h'
      have hfind : List.find? (fun z : Subject => z.id == k) (hd :: tl) =
          List.find? (fun z : Subject => z.id == k) tl :=
        List.find?_cons_of_neg tl (by simp [hk])
      rw [hfind]
      exact ih hndtl hsu hid

theorem subjectsWithLevel_nodup {subjects : List Subject}
    (hnd : (subjects.map (fun x => x.id)).Nodup) (lvl : Nat) :
    (subjectsWithLevel subjects lvl).Nodup := by
  unfold subjectsWithLevel
  have hsub : List.Sublist
      ((subjects.filter (fun su => su.level == lvl)).map (fun su => su.id))
      (subjects.map (fun su => su.id)) :=
    (List.filter_sublist subjects).map _
  exact hsub.nodup hnd

theorem subjectsWithLevel_mem {subjects : List Subject} {lvl x : Nat}
    (h : x ∈ subjectsWithLevel subjects lvl) :
    ∃ su, su ∈ subjects ∧ su.id = x ∧ su.level = lvl := by
  unfold subjectsWithLevel at h
  rw [List.mem_map] at h
  obtain ⟨su, hmem, hid⟩ := h
  rw [List.mem_filter] at hmem
  exact ⟨su, hmem.1, hid, by simpa using hmem.2⟩

theorem not_contains_eq_none {states : List (Nat × SubjectState)} {s : Nat}
    (h : ¬containsState states s = true) : lookupState states s = none := by
  unfold containsState at h
  cases hl : lookupState states s with
  | none => rfl
  | some st => rw [hl] at h; simp at h

theorem unlockDependents_fields {ctx : Ctx} :
    ∀ (deps : List Nat) (sim sim' : SimState),
      unlockDependents ctx sim deps = some sim' →
      sim'.cur_step = sim.cur_step ∧ sim'.cur_level = sim.cur_level ∧
      sim'.cur_level_subjects = sim.cur_level_subjects ∧
      sim'.cur_level_kanji = sim.cur_level_kanji := by
  intro deps
  induction deps with
  | nil =>
    intro sim sim' h
    simp only [unlockDependents] at h
    injection h with h
    subst h
    exact ⟨rfl, rfl, rfl, rfl⟩
  | cons d rest ih =>
    intro sim sim' h
    simp only [unlockDependents] at h
    by_cases hc : containsState sim.subject_states d = true
    · rw [if_pos hc] at h
      exact ih sim sim' h
    · rw [if_neg hc] at h
      split at h
      · simp at h
      · exact ih (unlockSubject sim d) sim' h
      · exact ih sim sim' h

theorem levelUnlockPass_fields {ctx : Ctx} :
    ∀ (todo : List Nat) (sim : SimState),
      (levelUnlockPass ctx sim todo).cur_step = sim.cur_step ∧
      (levelUnlockPass ctx sim todo).cur_level = sim.cur_level ∧
      (levelUnlockPass ctx sim todo).cur_level_subjects = sim.cur_level_subjects ∧
      (levelUnlockPass ctx sim todo).cur_level_kanji = sim.cur_level_kanji := by
  intro todo
  induction todo with
  | nil => intro sim; exact ⟨rfl, rfl, rfl, rfl⟩
  | cons sid rest ih =>
    intro sim
    simp only [levelUnlockPass]
    by_cases hc : (mayUnlock ctx sim sid).getD false = true
    · rw [if_pos hc]
      exact ih _
    · rw [if_neg hc]
      exact ih sim

theorem applyReviewResult_fields (sim : SimState) (subject : Subject) (sid newStage : Nat) :
    (applyReviewResult sim subject sid newStage).cur_step = sim.cur_step ∧
    (applyReviewResult sim subject sid newStage).cur_level = sim.cur_level ∧
    (applyReviewResult sim subject sid newStage).cur_level_subjects = sim.cur_level_subjects ∧
    (applyReviewResult sim subject sid newStage).cur_level_kanji = sim.cur_level_kanji := by
  unfold applyReviewResult
  cases hoursToNextReview subject.srs newStage with
  | some h => exact ⟨rfl, rfl, rfl, rfl⟩
  | none => exact ⟨rfl, rfl, rfl, rfl⟩

theorem reviewSubject_fields {ctx : Ctx} {sim sim2 : SimState} {sid : Nat}
    (h : reviewSubject ctx sim sid = some sim2) :
    sim2.cur_step = sim.cur_step ∧ sim2.cur_level = sim.cur_level ∧
    sim2.cur_level_subjects = sim.cur_level_subjects ∧
    sim2.cur_level_kanji = sim.cur_level_kanji := by
  unfold reviewSubject at h
  split at h
  · simp at h
  · split at h
    · simp at h
    · split at h
      · simp at h
      · simp at h
      · split at h
        · obtain ⟨a1, a2, a3, a4⟩ := unlockDependents_fields _ _ _ h
          refine ⟨a1.trans ?_, a2.trans ?_, a3.trans ?_, a4.trans ?_⟩
          · exact (applyReviewResult_fields _ _ _ _).1
          · exact (applyReviewResult_fields _ _ _ _).2.1
          · exact (applyReviewResult_fields _ _ _ _).2.2.1
          · exact (applyReviewResult_fields _ _ _ _).2.2.2
        · injection h with h
          subst h
          exact applyReviewResult_fields _ _ _ _

theorem checkLevelUp_level (ctx : Ctx) (sim : SimState) :
    (checkLevelUp ctx sim).cur_step = sim.cur_step ∧
    ((checkLevelUp ctx sim).cur_level = sim.cur_level ∨
      (checkLevelUp ctx sim).cur_level = sim.cur_level + 1) ∧
    sim.cur_level ≤ (checkLevelUp ctx sim).cur_level ∧
    (sim.cur_level ≤ MAX_LEVEL → (checkLevelUp ctx sim).cur_level ≤ MAX_LEVEL) := by
  unfold checkLevelUp
  by_cases hc : (decide (sim.cur_level < MAX_LEVEL) && passedCurrentLevel sim) = true
  · rw [if_pos hc]
    simp only [Bool.and_eq_true, decide_eq_true_eq] at hc
    obtain ⟨h1, _⟩ := hc
    obtain ⟨hstep, hlvl, _, _⟩ := @levelUnlockPass_fields ctx
      (subjectsWithLevel ctx.subjects (sim.cur_level + 1)) _
    refine ⟨hstep.trans rfl, Or.inr (hlvl.trans rfl), ?_, fun _ => ?_⟩
    · rw [hlvl]
      exact Nat.le_succ _
    · rw [hlvl]
      exact h1
  · rw [if_neg hc]
    exact ⟨rfl, Or.inl rfl, Nat.le_refl _, fun h => h⟩

theorem lockedCount_insert :
    ∀ (subjects : List Subject), (subjects.map (fun x => x.id)).Nodup →
      ∀ {sid : Nat} {su0 : Subject}, su0 ∈ subjects → su0.id = sid →
      ∀ (states : List (Nat × SubjectState)), lookupState states sid = none →
      ∀ (v : SubjectState),
      (subjects.filter (fun su => !containsState (insertState states sid v) su.id)).length + 1 =
        (subjects.filter (fun su => !containsState states su.id)).length := by
  intro subjects
  induction subjects with
  | nil => intro _ sid su0 hmem; simp at hmem
  | cons hd tl ih =>
    intro hnd sid su0 hmem hid states hfresh v
    rw [List.map_cons, List.nodup_cons] at hnd
    obtain ⟨hhd, hndtl⟩ := hnd
    rw [List.filter_cons, List.filter_cons]
    by_cases hcase : hd.id = sid
    · have hcontains_old : containsState states hd.id = false := by
        rw [hcase]
        unfold containsState
        rw [hfresh]
        rfl
      have hcontains_new : containsState (insertState states sid v) hd.id = true := by
        rw [hcase]
        unfold containsState
        rw [lookupState_insertState_self]
        rfl
      rw [if_neg (by simp [hcontains_new]), if_pos (by simp [hcontains_old])]
      have hagree : tl.filter (fun su => !containsState (insertState states sid v) su.id)
          = tl.filter (fun su => !containsState states su.id) := by
        apply List.filter_congr
        intro x hx
        have hxid : x.id ≠ sid := by
          intro hxe
          exact hhd (by rw [List.mem_map]; exact ⟨x, hx, by rw [hxe, ← hcase]⟩)
        rw [containsState_insertState]
        simp [hxid]
      rw [hagree]
      simp
    · have hsu0 : su0 ∈ tl := by
        rcases List.mem_cons.mp hmem with h' | h'
        · exact absurd (h' ▸ hid) hcase
        · exact h'
      have hagreehd : containsState (insertState states sid v) hd.id
          = containsState states hd.id := by
        rw [containsState_insertState]
        simp [hcase]
      rw [hagreehd]
      have hrec := ih hndtl hsu0 hid states hfresh v
      by_cases hct : (!containsState states hd.id) = true
      · rw [if_pos hct, if_pos hct]
        simp only [List.length_cons]
        omega
      · rw [if_neg hct, if_neg hct]
        exact hrec

theorem pop_spec {sim : SimState} {sid : Nat} {sim1 : SimState}
    (hQ : QInv sim) (hpop : popAvailableReview sim = some (sid, sim1)) :
    ∃ t st, lookupState sim.subject_states sid = some st ∧
      st.next_review_time = some t ∧ t ≤ sim.cur_step ∧
      sim1 = { sim with review_queue := removeEntry sim.review_queue (t, sid) } ∧
      (∀ u, countEntry sim1.review_queue (u, sid) = 0) ∧
      (∀ u s, s ≠ sid →
        countEntry sim1.review_queue (u, s) = countEntry sim.review_queue (u, s)) ∧
      dueCount sim1 + 1 = dueCount sim := by
  unfold popAvailableReview at hpop
  split at hpop
  · simp at hpop
  · rename_i e hpk
    obtain ⟨t, s2⟩ := e
    split at hpop
    case isTrue hdue =>
      injection hpop with hpop
      have he2 : s2 = sid := congrArg Prod.fst hpop
      subst he2
      have hsim1 : sim1 = { sim with review_queue := removeEntry sim.review_queue (t, s2) } :=
        (congrArg Prod.snd hpop).symm
      have hmem : (t, s2) ∈ sim.review_queue := heapPeek_mem hpk
      have hcnt : 1 ≤ countEntry sim.review_queue (t, s2) :=
        (countEntry_pos_iff_mem _ _).mpr hmem
      have hsched := hQ t s2
      cases hlook : lookupState sim.subject_states s2 with
      | none =>
        rw [hsched] at hcnt
        simp only [schedSpec, hlook] at hcnt
        omega
      | some st =>
        have hnext : st.next_review_time = some t := by
          by_contra hne
          rw [hsched] at hcnt
          simp only [schedSpec, hlook] at hcnt
          rw [if_neg hne] at hcnt
          simp at hcnt
        have hcount1 : countEntry sim.review_queue (t, s2) = 1 := by
          rw [hsched]
          simp only [schedSpec, hlook]
          rw [if_pos hnext]
        refine ⟨t, st, rfl, hnext, hdue, hsim1, ?_, ?_, ?_⟩
        · intro u
          rw [hsim1]
          show countEntry (removeEntry sim.review_queue (t, s2)) (u, s2) = 0
          by_cases hu : u = t
          · subst hu
            rw [countEntry_removeEntry_self, hcount1]
          · rw [countEntry_removeEntry_ne _ (by simp [hu])]
            rw [hQ u s2]
            simp only [schedSpec, hlook]
            rw [hnext]
            rw [if_neg (fun hh => hu (Option.some.inj hh).symm)]
        · intro u s hs
          rw [hsim1]
          show countEntry (removeEntry sim.review_queue (t, s2)) (u, s)
            = countEntry sim.review_queue (u, s)
          exact countEntry_removeEntry_ne _ (by simp [hs])
        · rw [hsim1]
          show ((removeEntry sim.review_queue (t, s2)).filter
            (fun e => decide (e.1 ≤ sim.cur_step))).length + 1 = dueCount sim
          exact filter_length_removeEntry hmem (by simp; exact hdue)
    case isFalse hdue =>
      simp at hpop

theorem unlock_fresh_spec {ctx : Ctx} {sim : SimState} {sid : Nat} {su : Subject}
    (hfind : lookupSubject ctx sid = some su)
    (hlev : su.level ≤ sim.cur_level)
    (hfresh : lookupState sim.subject_states sid = none)
    (hQ : QInv sim) (hLvl : LevelInv ctx sim) :
    QInv (unlockSubject sim sid) ∧ LevelInv ctx (unlockSubject sim sid) ∧
    (∀ s st, lookupState sim.subject_states s = some st →
      lookupState (unlockSubject sim sid).subject_states s = some st) ∧
    dueCount (unlockSubject sim sid) = dueCount sim + 1 ∧
    ((ctx.subjects.map (fun x => x.id)).Nodup →
      lockedCount ctx (unlockSubject sim sid) + 1 = lockedCount ctx sim) := by
  refine ⟨?_, ?_, ?_, ?_, ?_⟩
  · intro u s
    show countEntry (sim.review_queue ++ [(sim.cur_step, sid)]) (u, s)
      = schedSpec (insertState sim.subject_states sid (newlyUnlocked sim.cur_step)) s u
    rw [countEntry_append, countEntry_singleton]
    by_cases hs : s = sid
    · subst hs
      rw [hQ u s]
      simp only [schedSpec, hfresh, lookupState_insertState_self, newlyUnlocked]
      by_cases hu : u = sim.cur_step
      · subst hu
        simp
      · rw [if_neg (fun hh => hu (congrArg Prod.fst hh).symm)]
        rw [if_neg (fun hh => hu (Option.some.inj hh).symm)]
    · rw [if_neg (fun hh => hs (congrArg Prod.snd hh).symm)]
      rw [hQ u s]
      simp only [schedSpec, lookupState_insertState_ne _ _ hs]
      omega
  · intro s st hlook
    show ∃ su', lookupSubject ctx s = some su' ∧ su'.level ≤ sim.cur_level
    by_cases hs : s = sid
    · subst hs
      exact ⟨su, hfind, hlev⟩
    · have : lookupState sim.subject_states s = some st := by
        rw [← lookupState_insertState_ne sim.subject_states (newlyUnlocked sim.cur_step) hs]
        exact hlook
      exact hLvl s st this
  · intro s st hlook
    have hs : s ≠ sid := by
      intro h
      rw [h, hfresh] at hlook
      exact Option.noConfusion hlook
    show lookupState (insertState sim.subject_states sid (newlyUnlocked sim.cur_step)) s
      = some st
    rw [lookupState_insertState_ne _ _ hs]
    exact hlook
  · show ((sim.review_queue ++ [(sim.cur_step, sid)]).filter
      (fun e => decide (e.1 ≤ sim.cur_step))).length = dueCount sim + 1
    rw [filter_length_append_single]
    simp [dueCount]
  · intro hnd
    obtain ⟨hmem, hid⟩ := lookupSubject_mem_id hfind
    exact lockedCount_insert ctx.subjects hnd hmem hid sim.subject_states hfresh _

theorem mayUnlock_true {ctx : Ctx} {sim : SimState} {sid : Nat}
    (h : mayUnlock ctx sim sid = some true) :
    ∃ su, lookupSubject ctx sid = some su ∧ su.level ≤ sim.cur_level ∧
      ∀ d ∈ su.depends_on, containsState sim.subject_states d = true := by
  unfold mayUnlock at h
  split at h
  · simp at h
  · rename_i su hs
    injection h with h
    simp only [Bool.and_eq_true, decide_eq_true_eq, List.all_eq_true] at h
    exact ⟨su, hs, h.1, h.2⟩

theorem unlockDependents_spec {ctx : Ctx} :
    ∀ (deps : List Nat) (sim sim' : SimState),
      unlockDependents ctx sim deps = some sim' →
      QInv sim → LevelInv ctx sim →
      QInv sim' ∧ LevelInv ctx sim' ∧
      (∀ s st, lookupState sim.subject_states s = some st →
        lookupState sim'.subject_states s = some st) ∧
      ((ctx.subjects.map (fun x => x.id)).Nodup →
        dueCount sim' + lockedCount ctx sim' = dueCount sim + lockedCount ctx sim) := by
  intro deps
  induction deps with
  | nil =>
    intro sim sim' h hQ hLvl
    simp only [unlockDependents] at h
    injection h with h
    subst h
    exact ⟨hQ, hLvl, fun s st hh => hh, fun _ => rfl⟩
  | cons d rest ih =>
    intro sim sim' h hQ hLvl
    simp only [unlockDependents] at h
    by_cases hc : containsState sim.subject_states d = true
    · rw [if_pos hc] at h
      exact ih sim sim' h hQ hLvl
    · rw [if_neg hc] at h
      split at h
      · simp at h
      · rename_i hmu
        obtain ⟨su, hfind, hlev, _⟩ := mayUnlock_true hmu
        have hfresh : lookupState sim.subject_states d = none := not_contains_eq_none hc
        obtain ⟨hQ1, hL1, hpres1, hdue1, hlock1⟩ :=
          unlock_fresh_spec hfind hlev hfresh hQ hLvl
        obtain ⟨hQ2, hL2, hpres2, hcnt2⟩ := ih (unlockSubject sim d) sim' h hQ1 hL1
        refine ⟨hQ2, hL2, ?_, ?_⟩
        · intro s st hst
          exact hpres2 s st (hpres1 s st hst)
        · intro hnd
          have hch := hcnt2 hnd
          have hlk := hlock1 hnd
          omega
      · exact ih sim sim' h hQ hLvl

theorem levelUnlockPass_spec {ctx : Ctx} :
    ∀ (todo : List Nat) (sim : SimState),
      QInv sim → LevelInv ctx sim → todo.Nodup →
      (∀ x ∈ todo, lookupState sim.subject_states x = none) →
      QInv (levelUnlockPass ctx sim todo) ∧
      LevelInv ctx (levelUnlockPass ctx sim todo) ∧
      (∀ s st, lookupState sim.subject_states s = some st →
        lookupState (levelUnlockPass ctx sim todo).subject_states s = some st) ∧
      ((ctx.subjects.map (fun x => x.id)).Nodup →
        dueCount (levelUnlockPass ctx sim todo)
            + lockedCount ctx (levelUnlockPass ctx sim todo)
          = dueCount sim + lockedCount ctx sim) := by
  intro todo
  induction todo with
  | nil =>
    intro sim hQ hLvl _ _
    exact ⟨hQ, hLvl, fun s st hh => hh, fun _ => rfl⟩
  | cons sid rest ih =>
    intro sim hQ hLvl hnodup hfresh
    simp only [levelUnlockPass]
    rw [List.nodup_cons] at hnodup
    obtain ⟨hsid_rest, hnodup_rest⟩ := hnodup
    by_cases hmu : (mayUnlock ctx sim sid).getD false = true
    · rw [if_pos hmu]
      have hmu' : mayUnlock ctx sim sid = some true := by
        cases hh : mayUnlock ctx sim sid with
        | none => rw [hh] at hmu; simp at hmu
        | some b =>
          rw [hh] at hmu
          simp only [Option.getD_some] at hmu
          rw [hmu]
      obtain ⟨su, hfind, hlev, _⟩ := mayUnlock_true hmu'
      have hfreshsid := hfresh sid (List.mem_cons_self sid rest)
      obtain ⟨hQ1, hL1, hpres1, hdue1, hlock1⟩ :=
        unlock_fresh_spec hfind hlev hfreshsid hQ hLvl
      have hfresh_rest : ∀ x ∈ rest,
          lookupState (unlockSubject sim sid).subject_states x = none := by
        intro x hx
        show lookupState (insertState sim.subject_states sid (newlyUnlocked sim.cur_step)) x
          = none
        rw [lookupState_insertState_ne _ _ (fun (he : x = sid) => hsid_rest (he ▸ hx))]
        exact hfresh x (List.mem_cons_of_mem _ hx)
      obtain ⟨hQ2, hL2, hpres2, hcnt2⟩ :=
        ih (unlockSubject sim sid) hQ1 hL1 hnodup_rest hfresh_rest
      refine ⟨hQ2, hL2, ?_, ?_⟩
      · intro s st hst
        exact hpres2 s st (hpres1 s st hst)
      · intro hnd
        have hch := hcnt2 hnd
        have hlk := hlock1 hnd
        omega
    · rw [if_neg hmu]
      exact ih sim hQ hLvl hnodup_rest (fun x hx => hfresh x (List.mem_cons_of_mem _ hx))

theorem subjectsWithLevel_fresh {ctx : Ctx} {sim : SimState}
    (hnd : (ctx.subjects.map (fun x => x.id)).Nodup)
    (hLvl : LevelInv ctx sim) (lvl : Nat) (hgt : sim.cur_level < lvl) :
    ∀ x ∈ subjectsWithLevel ctx.subjects lvl, lookupState sim.subject_states x = none := by
  intro x hx
  cases hlook : lookupState sim.subject_states x with
  | none => rfl
  | some st =>
    obtain ⟨su, hfind, hle⟩ := hLvl x st hlook
    obtain ⟨su', hmem', hid', hlvl'⟩ := subjectsWithLevel_mem hx
    have hfind' : lookupSubject ctx x = some su' := find?_id_unique hnd hmem' hid'
    rw [hfind'] at hfind
    injection hfind with hfind
    rw [hfind] at hlvl'
    omega

theorem checkLevelUp_spec {ctx : Ctx} {sim : SimState}
    (hnd : (ctx.subjects.map (fun x => x.id)).Nodup)
    (hQ : QInv sim) (hLvl : LevelInv ctx sim) :
    QInv (checkLevelUp ctx sim) ∧ LevelInv ctx (checkLevelUp ctx sim) ∧
    (∀ s st, lookupState sim.subject_states s = some st →
      lookupState (checkLevelUp ctx sim).subject_states s = some st) ∧
    (dueCount (checkLevelUp ctx sim) + lockedCount ctx (checkLevelUp ctx sim)
      = dueCount sim + lockedCount ctx sim) := by
  unfold checkLevelUp
  by_cases hc : (decide (sim.cur_level < MAX_LEVEL) && passedCurrentLevel sim) = true
  · rw [if_pos hc]
    obtain ⟨hQ2, hL2, hpres2, hcnt2⟩ :=
      levelUnlockPass_spec (subjectsWithLevel ctx.subjects (sim.cur_level + 1))
        { sim with
          cur_level := sim.cur_level + 1,
          cur_level_subjects := subjectsWithLevel ctx.subjects (sim.cur_level + 1),
          cur_level_kanji :=
            (subjectsWithLevel ctx.subjects (sim.cur_level + 1)).filter (fun sid =>
              match lookupSubject ctx sid with
              | some su => su.kind == SubjectKind.Kanji
              | none => false) }
        hQ
        (fun s st h => (hLvl s st h).elim
          (fun su hsu => ⟨su, hsu.1, Nat.le_succ_of_le hsu.2⟩))
        (subjectsWithLevel_nodup hnd _)
        (fun x hx => subjectsWithLevel_fresh hnd hLvl (sim.cur_level + 1)
          (Nat.lt_succ_self _) x hx)
    exact ⟨hQ2, hL2, hpres2, hcnt2 hnd⟩
  · rw [if_neg hc]
    exact ⟨hQ, hLvl, fun s st h => h, rfl⟩

theorem hoursToNextReview_ge_two {srs : Srs} {stage h : Nat}
    (hh : hoursToNextReview srs stage = some h) : 2 ≤ h := by
  unfold hoursToNextReview at hh
  split_ifs at hh <;> cases srs <;> simp_all <;> omega

theorem applyReviewResult_spec {ctx : Ctx} {sim : SimState} {sid : Nat} {st0 : SubjectState}
    (subject : Subject) (newStage : Nat)
    (hlook : lookupState sim.subject_states sid = some st0)
    (hzero : ∀ u, countEntry sim.review_queue (u, sid) = 0)
    (hrest : ∀ u s, s ≠ sid →
      countEntry sim.review_queue (u, s) = schedSpec sim.subject_states s u)
    (hLvl : LevelInv ctx sim) :
    QInv (applyReviewResult sim subject sid newStage) ∧
    LevelInv ctx (applyReviewResult sim subject sid newStage) ∧
    (∀ s st, s ≠ sid → lookupState sim.subject_states s = some st →
      lookupState (applyReviewResult sim subject sid newStage).subject_states s = some st) ∧
    dueCount (applyReviewResult sim subject sid newStage) = dueCount sim ∧
    lockedCount ctx (applyReviewResult sim subject sid newStage) = lockedCount ctx sim := by
  have hcont : ∀ (v : SubjectState) (x : Nat),
      containsState (insertState sim.subject_states sid v) x
        = containsState sim.subject_states x := by
    intro v x
    rw [containsState_insertState]
    by_cases hx : x = sid
    · subst hx
      simp [containsState, hlook]
    · simp [hx]
  unfold applyReviewResult
  cases hh : hoursToNextReview subject.srs newStage with
  | some hrs =>
    have hpos : 2 ≤ hrs := hoursToNextReview_ge_two hh
    refine ⟨?_, ?_, ?_, ?_, ?_⟩
    · intro u s
      show countEntry (sim.review_queue ++ [(sim.cur_step + hrs, sid)]) (u, s)
        = schedSpec
            (insertState sim.subject_states sid ⟨newStage, some (sim.cur_step + hrs)⟩) s u
      rw [countEntry_append, countEntry_singleton]
      by_cases hs : s = sid
      · subst hs
        rw [hzero u]
        simp only [schedSpec, lookupState_insertState_self]
        by_cases hu : u = sim.cur_step + hrs
        · subst hu
          simp
        · rw [if_neg (fun hh2 => hu (congrArg Prod.fst hh2).symm)]
          rw [if_neg (fun hh2 => hu (Option.some.inj hh2).symm)]
      · rw [if_neg (fun hh2 => hs (congrArg Prod.snd hh2).symm)]
        rw [hrest u s hs]
        simp only [schedSpec, lookupState_insertState_ne _ _ hs]
        omega
    · intro s st hl
      by_cases hs : s = sid
      · subst hs
        obtain ⟨su, hf, hle⟩ := hLvl s st0 hlook
        exact ⟨su, hf, hle⟩
      · have : lookupState sim.subject_states s = some st := by
          rw [← lookupState_insertState_ne sim.subject_states
            (⟨newStage, some (sim.cur_step + hrs)⟩ : SubjectState) hs]
          exact hl
        exact hLvl s st this
    · intro s st hs hl
      show lookupState
        (insertState sim.subject_states sid ⟨newStage, some (sim.cur_step + hrs)⟩) s
        = some st
      rw [lookupState_insertState_ne _ _ hs]
      exact hl
    · show ((sim.review_queue ++ [(sim.cur_step + hrs, sid)]).filter
        (fun e => decide (e.1 ≤ sim.cur_step))).length = dueCount sim
      rw [filter_length_append_single]
      have : ¬(sim.cur_step + hrs ≤ sim.cur_step) := by omega
      simp [this, dueCount]
    · show (ctx.subjects.filter (fun su =>
        !containsState
          (insertState sim.subject_states sid ⟨newStage, some (sim.cur_step + hrs)⟩)
          su.id)).length = lockedCount ctx sim
      unfold lockedCount
      congr 1
      apply List.filter_congr
      intro x _
      rw [hcont]
  | none =>
    refine ⟨?_, ?_, ?_, rfl, ?_⟩
    · intro u s
      show countEntry sim.review_queue (u, s)
        = schedSpec (insertState sim.subject_states sid ⟨newStage, none⟩) s u
      by_cases hs : s = sid
      · subst hs
        rw [hzero u]
        simp only [schedSpec, lookupState_insertState_self]
        simp
      · rw [hrest u s hs]
        simp only [schedSpec, lookupState_insertState_ne _ _ hs]
    · intro s st hl
      by_cases hs : s = sid
      · subst hs
        obtain ⟨su, hf, hle⟩ := hLvl s st0 hlook
        exact ⟨su, hf, hle⟩
      · have : lookupState sim.subject_states s = some st := by
          rw [← lookupState_insertState_ne sim.subject_states
            (⟨newStage, none⟩ : SubjectState) hs]
          exact hl
        exact hLvl s st this
    · intro s st hs hl
      show lookupState (insertState sim.subject_states sid ⟨newStage, none⟩) s = some st
      rw [lookupState_insertState_ne _ _ hs]
      exact hl
    · show (ctx.subjects.filter (fun su =>
        !containsState (insertState sim.subject_states sid ⟨newStage, none⟩) su.id)).length
        = lockedCount ctx sim
      unfold lockedCount
      congr 1
      apply List.filter_congr
      intro x _
      rw [hcont]

theorem reviewSubject_spec {ctx : Ctx} {sim sim2 : SimState} {sid : Nat} {st0 : SubjectState}
    (hlook : lookupState sim.subject_states sid = some st0)
    (hzero : ∀ u, countEntry sim.review_queue (u, sid) = 0)
    (hrest : ∀ u s, s ≠ sid →
      countEntry sim.review_queue (u, s) = schedSpec sim.subject_states s u)
    (hLvl : LevelInv ctx sim)
    (hrev : reviewSubject ctx sim sid = some sim2) :
    QInv sim2 ∧ LevelInv ctx sim2 ∧
    (∀ s st, s ≠ sid → lookupState sim.subject_states s = some st →
      lookupState sim2.subject_states s = some st) ∧
    ((ctx.subjects.map (fun x => x.id)).Nodup →
      dueCount sim2 + lockedCount ctx sim2 = dueCount sim + lockedCount ctx sim) := by
  unfold reviewSubject at hrev
  split at hrev
  · simp at hrev
  · split at hrev
    · simp at hrev
    · split at hrev
      · simp at hrev
      · simp at hrev
      · rename_i x1 subject hsubj x2 st hstate x3 newStage hsample
        obtain ⟨hQ1, hL1, hpres1, hdue1, hlock1⟩ :=
          applyReviewResult_spec subject newStage hlook hzero hrest hLvl
        split at hrev
        · obtain ⟨hQ2, hL2, hpres2, hcnt2⟩ :=
            unlockDependents_spec subject.depended_on_by _ sim2 hrev hQ1 hL1
          refine ⟨hQ2, hL2, ?_, ?_⟩
          · intro s st' hs hl
            exact hpres2 s st' (hpres1 s st' hs hl)
          · intro hnd
            have hch := hcnt2 hnd
            omega
        · injection hrev with hrev
          subst hrev
          refine ⟨hQ1, hL1, hpres1, ?_⟩
          intro _
          omega

theorem peek_isSome_due {sim : SimState}
    (h : (peekAvailableReview sim).isSome = true) : 1 ≤ dueCount sim := by
  unfold peekAvailableReview at h
  split at h
  · simp at h
  · rename_i t sid hpk
    split at h
    case isTrue hdue =>
      have hmem : (t, sid) ∈ sim.review_queue := heapPeek_mem hpk
      have hmemf : (t, sid) ∈ sim.review_queue.filter (fun e => decide (e.1 ≤ sim.cur_step)) :=
        List.mem_filter.mpr ⟨hmem, by simp; exact hdue⟩
      exact List.length_pos_of_mem hmemf
    case isFalse hdue =>
      simp at h

theorem pop_none_due {sim : SimState} (h : popAvailableReview sim = none) :
    dueCount sim = 0 := by
  unfold popAvailableReview at h
  split at h
  · rename_i hpk
    unfold dueCount
    rw [heapPeek_none.mp hpk]
    rfl
  · rename_i e hpk
    split at h
    case isTrue hdue => simp at h
    case isFalse hdue =>
      unfold dueCount
      have hnil : sim.review_queue.filter (fun x => decide (x.1 ≤ sim.cur_step)) = [] := by
        apply List.filter_eq_nil_iff.mpr
        intro x hx
        have hmin := heapPeek_min hpk x hx
        simp only [decide_eq_true_eq]
        intro hc
        exact hdue (Nat.le_trans hmin hc)
      rw [hnil]
      rfl

theorem stepLoop_spec {ctx : Ctx} (hnd : (ctx.subjects.map (fun x => x.id)).Nodup) :
    ∀ (fuel : Nat) (sim : SimState) (acc : Nat) (sim' : SimState) (n : Nat),
      stepLoop ctx fuel sim acc = some (some (sim', n)) →
      QInv sim → LevelInv ctx sim →
      QInv sim' ∧ LevelInv ctx sim' ∧
      (∀ s st, lookupState sim.subject_states s = some st → st.next_review_time = none →
        lookupState sim'.subject_states s = some st) ∧
      n ≤ acc + dueCount sim + lockedCount ctx sim ∧
      sim'.cur_step = sim.cur_step := by
  intro fuel
  induction fuel with
  | zero =>
    intro sim acc sim' n h
    simp [stepLoop] at h
  | succ fuel ih =>
    intro sim acc sim' n h hQ hLvl
    simp only [stepLoop] at h
    split at h
    · rename_i sid sim1 hpop
      obtain ⟨t, st, hlook, hnext, hdue, hsim1eq, hz, hr, hdc⟩ := pop_spec hQ hpop
      subst hsim1eq
      split at h
      · simp at h
      · rename_i sim2 hrev
        have hlook1 : lookupState
            ({ sim with review_queue := removeEntry sim.review_queue (t, sid) }
              : SimState).subject_states sid = some st := hlook
        have hrest1 : ∀ u s, s ≠ sid →
            countEntry (removeEntry sim.review_queue (t, sid)) (u, s)
              = schedSpec sim.subject_states s u :=
          fun u s hs => (hr u s hs).trans (hQ u s)
        obtain ⟨hQ2, hL2, hpres2, hcnt2⟩ := reviewSubject_spec hlook1 hz hrest1 hLvl hrev
        obtain ⟨IHQ, IHL, IHpres, IHn, IHstep⟩ := ih sim2 (acc + 1) sim' n h hQ2 hL2
        obtain ⟨hf1, _, _, _⟩ := reviewSubject_fields hrev
        refine ⟨IHQ, IHL, ?_, ?_, ?_⟩
        · intro s st' hl hnone
          have hs : s ≠ sid := by
            intro he
            rw [he, hlook] at hl
            have : st = st' := Option.some.inj hl
            rw [← this, hnext] at hnone
            exact Option.noConfusion hnone
          exact IHpres s st' (hpres2 s st' hs hl) hnone
        · have hch := hcnt2 hnd
          have hlock_eq : lockedCount ctx
              { sim with review_queue := removeEntry sim.review_queue (t, sid) }
              = lockedCount ctx sim := rfl
          have hdue_eq : dueCount
              { sim with review_queue := removeEntry sim.review_queue (t, sid) } + 1
              = dueCount sim := hdc
          omega
        · rw [IHstep, hf1]
    · rename_i hpop
      obtain ⟨hQ2, hL2, hpres2, hcnt2⟩ := checkLevelUp_spec hnd hQ hLvl
      split at h
      case isTrue hpeek =>
        obtain ⟨IHQ, IHL, IHpres, IHn, IHstep⟩ := ih (checkLevelUp ctx sim) acc sim' n h hQ2 hL2
        refine ⟨IHQ, IHL, ?_, ?_, ?_⟩
        · intro s st hl hnone
          exact IHpres s st (hpres2 s st hl) hnone
        · omega
        · rw [IHstep, (checkLevelUp_level ctx sim).1]
      case isFalse hpeek =>
        injection h with h
        injection h with h
        have hsim' : checkLevelUp ctx sim = sim' := congrArg Prod.fst h
        have hn : acc = n := congrArg Prod.snd h
        subst hsim'
        subst hn
        exact ⟨hQ2, hL2, fun s st hl _ => hpres2 s st hl, by omega,
          (checkLevelUp_level ctx sim).1⟩

theorem pop_fields {sim : SimState} {sid : Nat} {sim1 : SimState}
    (h : popAvailableReview sim = some (sid, sim1)) :
    sim1.cur_step = sim.cur_step ∧ sim1.cur_level = sim.cur_level := by
  unfold popAvailableReview at h
  split at h
  · simp at h
  · rename_i e hpk
    split at h
    case isTrue =>
      injection h with h
      have hs := congrArg Prod.snd h
      subst hs
      exact ⟨rfl, rfl⟩
    case isFalse => simp at h

theorem stepLoop_level_mono {ctx : Ctx} :
    ∀ (fuel : Nat) (sim : SimState) (acc : Nat) (sim' : SimState) (n : Nat),
      stepLoop ctx fuel sim acc = some (some (sim', n)) →
      sim.cur_level ≤ sim'.cur_level ∧
      (sim.cur_level ≤ MAX_LEVEL → sim'.cur_level ≤ MAX_LEVEL) := by
  intro fuel
  induction fuel with
  | zero =>
    intro sim acc sim' n h
    simp [stepLoop] at h
  | succ fuel ih =>
    intro sim acc sim' n h
    simp only [stepLoop] at h
    split at h
    · rename_i sid sim1 hpop
      split at h
      · simp at h
      · rename_i sim2 hrev
        obtain ⟨ih1, ih2⟩ := ih sim2 (acc + 1) sim' n h
        obtain ⟨_, hl2, _, _⟩ := reviewSubject_fields hrev
        obtain ⟨_, hl1⟩ := pop_fields hpop
        rw [hl2, hl1] at ih1 ih2
        exact ⟨ih1, ih2⟩
    · rename_i hpop
      obtain ⟨_, _, hmono, hbound⟩ := checkLevelUp_level ctx sim
      split at h
      case isTrue =>
        obtain ⟨ih1, ih2⟩ := ih (checkLevelUp ctx sim) acc sim' n h
        exact ⟨Nat.le_trans hmono ih1, fun hb => ih2 (hbound hb)⟩
      case isFalse =>
        injection h with h
        injection h with h
        have hsim' : checkLevelUp ctx sim = sim' := congrArg Prod.fst h
        subst hsim'
        exact ⟨hmono, hbound⟩

theorem stepFn_spec {ctx : Ctx} (hnd : (ctx.subjects.map (fun x => x.id)).Nodup)
    {fuel : Nat} {sim sim' : SimState} {n : Nat}
    (h : stepFn ctx fuel sim = some (some (sim', n)))
    (hQ : QInv sim) (hLvl : LevelInv ctx sim) :
    QInv sim' ∧ LevelInv ctx sim' ∧
    (∀ s st, lookupState sim.subject_states s = some st → st.next_review_time = none →
      lookupState sim'.subject_states s = some st) ∧
    n ≤ dueCount sim + lockedCount ctx sim ∧
    sim.cur_level ≤ sim'.cur_level := by
  unfold stepFn at h
  split at h
  · -- something was due: the loop ran
    split at h
    · simp at h
    · simp at h
    · rename_i sim'' n'' hr
      injection h with h
      injection h with h
      have hsim' : ({ sim'' with cur_step := sim''.cur_step + 1 } : SimState) = sim' :=
        congrArg Prod.fst h
      have hn : n'' = n := congrArg Prod.snd h
      subst hn
      obtain ⟨hQ2, hL2, hpres2, hn2, _⟩ := stepLoop_spec hnd fuel sim 0 sim'' n'' hr hQ hLvl
      subst hsim'
      exact ⟨hQ2, hL2, hpres2, by omega,
        (stepLoop_level_mono fuel sim 0 sim'' n'' hr).1⟩
  · injection h with h
    injection h with h
    have hsim' : ({ sim with cur_step := sim.cur_step + 1 } : SimState) = sim' :=
      congrArg Prod.fst h
    have hn : (0 : Nat) = n := congrArg Prod.snd h
    subst hsim'
    subst hn
    exact ⟨hQ, hLvl, fun s st hl _ => hl, by omega, Nat.le_refl _⟩

theorem lookupState_cons_self (k : Nat) (v : SubjectState) (tl : List (Nat × SubjectState)) :
    lookupState ((k, v) :: tl) k = some v := by
  simp [lookupState]

theorem lookupState_cons_ne (k : Nat) (v : SubjectState) (tl : List (Nat × SubjectState))
    {s : Nat} (h : ¬k = s) : lookupState ((k, v) :: tl) s = lookupState tl s := by
  simp [lookupState, h]

theorem insertState_keys_mem {s x : Nat} {v : SubjectState} :
    ∀ {states : List (Nat × SubjectState)},
      x ∈ (insertState states s v).map (fun p => p.1) →
        x ∈ states.map (fun p => p.1) ∨ x = s := by
  intro states
  induction states with
  | nil =>
    intro h
    rw [show insertState [] s v = [(s, v)] from rfl, List.map_cons] at h
    rcases List.mem_cons.mp h with h | h
    · exact Or.inr h
    · simp at h
  | cons hd tl ih =>
    obtain ⟨k, w⟩ := hd
    intro h
    by_cases hk : k = s
    · rw [show insertState ((k, w) :: tl) s v = (k, v) :: tl from by
        simp [insertState, hk], List.map_cons] at h
      rcases List.mem_cons.mp h with h | h
      · exact Or.inl (by rw [List.map_cons]; exact List.mem_cons.mpr (Or.inl h))
      · exact Or.inl (by rw [List.map_cons]; exact List.mem_cons.mpr (Or.inr h))
    · rw [show insertState ((k, w) :: tl) s v = (k, w) :: insertState tl s v from by
        simp [insertState, hk], List.map_cons] at h
      rcases List.mem_cons.mp h with h | h
      · exact Or.inl (by rw [List.map_cons]; exact List.mem_cons.mpr (Or.inl h))
      · rcases ih h with h' | h'
        · exact Or.inl (by rw [List.map_cons]; exact List.mem_cons.mpr (Or.inr h'))
        · exact Or.inr h'

theorem insertState_keys_nodup {s : Nat} {v : SubjectState} :
    ∀ {states : List (Nat × SubjectState)}, (states.map (fun p => p.1)).Nodup →
      ((insertState states s v).map (fun p => p.1)).Nodup := by
  intro states
  induction states with
  | nil =>
    intro _
    rw [show insertState [] s v = [(s, v)] from rfl]
    simp
  | cons hd tl ih =>
    obtain ⟨k, w⟩ := hd
    intro hnd
    rw [List.map_cons, List.nodup_cons] at hnd
    obtain ⟨hk_tl, hnd_tl⟩ := hnd
    by_cases hk : k = s
    · rw [show insertState ((k, w) :: tl) s v = (k, v) :: tl from by
        simp [insertState, hk], List.map_cons, List.nodup_cons]
      exact ⟨hk_tl, hnd_tl⟩
    · rw [show insertState ((k, w) :: tl) s v = (k, w) :: insertState tl s v from by
        simp [insertState, hk], List.map_cons, List.nodup_cons]
      refine ⟨?_, ih hnd_tl⟩
      intro hkmem
      rcases insertState_keys_mem hkmem with h' | h'
      · exact hk_tl h'
      · exact hk h'

theorem buildStates_nodup {base : Int} :
    ∀ (assignments : List Assignment) (acc states : List (Nat × SubjectState)),
      (acc.map (fun p => p.1)).Nodup →
      buildStates base assignments acc = some states →
      (states.map (fun p => p.1)).Nodup := by
  intro assignments
  induction assignments with
  | nil =>
    intro acc states hnd h
    simp only [buildStates] at h
    injection h with h
    subst h
    exact hnd
  | cons a rest ih =>
    intro acc states hnd h
    simp only [buildStates] at h
    split at h
    · simp at h
    · exact ih _ states (insertState_keys_nodup hnd) h

theorem schedQueue_count_zero {s : Nat} (t : Nat) :
    ∀ {states : List (Nat × SubjectState)}, ¬s ∈ states.map (fun p => p.1) →
      countEntry (states.filterMap
        (fun p => p.2.next_review_time.map (fun u => (u, p.1)))) (t, s) = 0 := by
  intro states
  induction states with
  | nil => intro _; rfl
  | cons hd tl ih =>
    obtain ⟨k, v⟩ := hd
    intro hs
    rw [List.map_cons, List.mem_cons] at hs
    push_neg at hs
    obtain ⟨hks, hstl⟩ := hs
    simp only [List.filterMap_cons]
    cases hv : v.next_review_time with
    | none => exact ih hstl
    | some u =>
      show (if ((u, k) : Nat × Nat) = (t, s) then 1 else 0)
        + countEntry (tl.filterMap
            (fun p => p.2.next_review_time.map (fun w => (w, p.1)))) (t, s) = 0
      rw [if_neg (fun hh => hks (congrArg Prod.snd hh).symm)]
      rw [ih hstl]

theorem schedQueue_count (t s : Nat) :
    ∀ {states : List (Nat × SubjectState)}, (states.map (fun p => p.1)).Nodup →
      countEntry (states.filterMap
          (fun p => p.2.next_review_time.map (fun u => (u, p.1)))) (t, s)
        = schedSpec states s t := by
  intro states
  induction states with
  | nil => intro _; rfl
  | cons hd tl ih =>
    obtain ⟨k, v⟩ := hd
    intro hnd
    rw [List.map_cons, List.nodup_cons] at hnd
    obtain ⟨hk_tl, hnd_tl⟩ := hnd
    simp only [List.filterMap_cons]
    have hk' : k ∉ tl.map (fun p => p.1) := hk_tl
    by_cases hks : k = s
    · subst hks
      have hsched : schedSpec ((k, v) :: tl) k t
          = (if v.next_review_time = some t then 1 else 0) := by
        unfold schedSpec
        rw [lookupState_cons_self]
      rw [hsched]
      cases hv : v.next_review_time with
      | none =>
        show countEntry (tl.filterMap
            (fun p => p.2.next_review_time.map (fun w => (w, p.1)))) (t, k)
          = if (none : Option Nat) = some t then 1 else 0
        rw [schedQueue_count_zero t hk']
        simp
      | some u =>
        show (if ((u, k) : Nat × Nat) = (t, k) then 1 else 0)
          + countEntry (tl.filterMap
              (fun p => p.2.next_review_time.map (fun w => (w, p.1)))) (t, k)
          = if some u = some t then 1 else 0
        rw [schedQueue_count_zero t hk']
        by_cases hut : u = t
        · subst hut
          simp
        · rw [if_neg (fun hh => hut (congrArg Prod.fst hh))]
          rw [if_neg (fun hh => hut (Option.some.inj hh))]
    · have hsched : schedSpec ((k, v) :: tl) s t = schedSpec tl s t := by
        unfold schedSpec
        rw [lookupState_cons_ne _ _ _ hks]
      rw [hsched]
      cases hv : v.next_review_time with
      | none => exact ih hnd_tl
      | some u =>
        show (if ((u, k) : Nat × Nat) = (t, s) then 1 else 0)
          + countEntry (tl.filterMap
              (fun p => p.2.next_review_time.map (fun w => (w, p.1)))) (t, s)
          = schedSpec tl s t
        rw [if_neg (fun hh => hks (congrArg Prod.snd hh))]
        rw [ih hnd_tl]
        omega

theorem listMax_ge : ∀ {l : List Nat} {m : Nat}, listMax l = some m → ∀ x ∈ l, x ≤ m := by
  intro l
  induction l with
  | nil => intro m h; simp [listMax] at h
  | cons hd tl ih =>
    intro m h x hx
    simp only [listMax] at h
    injection h with h
    rcases List.mem_cons.mp hx with hx | hx
    · subst hx
      cases htl : listMax tl with
      | none => rw [htl] at h; simp at h; omega
      | some mt => rw [htl] at h; simp at h; omega
    · cases htl : listMax tl with
      | none =>
        cases tl with
        | nil => simp at hx
        | cons y ys => simp only [listMax] at htl; exact absurd htl (by simp)
      | some mt =>
        have hxle := ih htl x hx
        rw [htl] at h
        simp at h
        omega

theorem listMax_le {b : Nat} : ∀ {l : List Nat}, (∀ x ∈ l, x ≤ b) →
    ∀ {m : Nat}, listMax l = some m → m ≤ b := by
  intro l
  induction l with
  | nil => intro _ m h; simp [listMax] at h
  | cons hd tl ih =>
    intro hall m h
    simp only [listMax] at h
    injection h with h
    cases htl : listMax tl with
    | none =>
      rw [htl] at h
      simp at h
      subst h
      exact hall hd (List.mem_cons_self _ _)
    | some mt =>
      rw [htl] at h
      simp at h
      have h1 := hall hd (List.mem_cons_self _ _)
      have h2 := ih (fun x hx => hall x (List.mem_cons_of_mem _ hx)) htl
      omega

theorem stateLevels_lookup {ctx : Ctx} :
    ∀ {states : List (Nat × SubjectState)} {levels : List Nat},
      stateLevels ctx states = some levels →
      ∀ s st, lookupState states s = some st →
        ∃ su, lookupSubject ctx s = some su ∧ su.level ∈ levels := by
  intro states
  induction states with
  | nil =>
    intro levels _ s st hl
    simp [lookupState] at hl
  | cons hd tl ih =>
    obtain ⟨k, v⟩ := hd
    intro levels h s st hl
    simp only [stateLevels] at h
    split at h
    · rename_i su ls hsu hls
      injection h with h
      subst h
      by_cases hks : k = s
      · subst hks
        exact ⟨su, hsu, List.mem_cons_self _ _⟩
      · rw [lookupState_cons_ne _ _ _ hks] at hl
        obtain ⟨su', hsu', hmem'⟩ := ih hls s st hl
        exact ⟨su', hsu', List.mem_cons_of_mem _ hmem'⟩
    · simp at h

theorem stateLevels_mem_catalog {ctx : Ctx} :
    ∀ {states : List (Nat × SubjectState)} {levels : List Nat},
      stateLevels ctx states = some levels →
      ∀ x ∈ levels, ∃ su, su ∈ ctx.subjects ∧ su.level = x := by
  intro states
  induction states with
  | nil =>
    intro levels h x hx
    simp only [stateLevels] at h
    injection h with h
    subst h
    simp at hx
  | cons hd tl ih =>
    obtain ⟨k, v⟩ := hd
    intro levels h x hx
    simp only [stateLevels] at h
    split at h
    · rename_i su ls hsu hls
      injection h with h
      subst h
      rcases List.mem_cons.mp hx with hx | hx
      · exact ⟨su, (lookupSubject_mem_id hsu).1, hx.symm⟩
      · exact ih hls x hx
    · simp at h

theorem simulatorNew_good {ctx : Ctx} {assignments : List Assignment} {sim : SimState}
    (h : simulatorNew ctx assignments = some sim) :
    QInv sim ∧ LevelInv ctx sim ∧
    ((∀ su ∈ ctx.subjects, su.level ≤ MAX_LEVEL) → sim.cur_level ≤ MAX_LEVEL) := by
  unfold simulatorNew at h
  split at h
  · simp at h
  · split at h
    · simp at h
    · rename_i minT hmin states hbuild
      split at h
      · simp at h
      · rename_i levels hlevels
        split at h
        · simp at h
        · rename_i lvl hmax
          injection h with h
          subst h
          have hnodup : (states.map (fun p => p.1)).Nodup :=
            buildStates_nodup assignments [] states (by simp) hbuild
          refine ⟨?_, ?_, ?_⟩
          · intro t s
            exact schedQueue_count t s hnodup
          · intro s st hl
            obtain ⟨su, hsu, hmem⟩ := stateLevels_lookup hlevels s st hl
            exact ⟨su, hsu, listMax_ge hmax _ hmem⟩
          · intro hlev
            refine listMax_le ?_ hmax
            intro x hx
            obtain ⟨su, hmem, hlvl⟩ := stateLevels_mem_catalog hlevels x hx
            rw [← hlvl]
            exact hlev su hmem

theorem reaches_good {ctx : Ctx} {assignments : List Assignment} {sim : SimState}
    (hnd : (ctx.subjects.map (fun x => x.id)).Nodup)
    (hr : Reaches ctx assignments sim) : QInv sim ∧ LevelInv ctx sim := by
  induction hr with
  | init sim hinit =>
    exact ⟨(simulatorNew_good hinit).1, (simulatorNew_good hinit).2.1⟩
  | next sim fuel sim' n hr hstep ihp =>
    obtain ⟨hQ, hL⟩ := ihp
    obtain ⟨hQ', hL', _, _, _⟩ := stepFn_spec hnd hstep hQ hL
    exact ⟨hQ', hL'⟩

theorem stepFn_level {ctx : Ctx} {fuel : Nat} {sim sim' : SimState} {n : Nat}
    (h : stepFn ctx fuel sim = some (some (sim', n))) :
    sim.cur_level ≤ sim'.cur_level ∧
    (sim.cur_level ≤ MAX_LEVEL → sim'.cur_level ≤ MAX_LEVEL) := by
  unfold stepFn at h
  split at h
  · split at h
    · simp at h
    · simp at h
    · rename_i sim'' n'' hr
      injection h with h
      injection h with h
      have hsim' : ({ sim'' with cur_step := sim''.cur_step + 1 } : SimState) = sim' :=
        congrArg Prod.fst h
      subst hsim'
      exact stepLoop_level_mono fuel sim 0 sim'' n'' hr
  · injection h with h
    injection h with h
    have hsim' : ({ sim with cur_step := sim.cur_step + 1 } : SimState) = sim' :=
      congrArg Prod.fst h
    subst hsim'
    exact ⟨Nat.le_refl _, fun hb => hb⟩

theorem reaches_level_le {ctx : Ctx} {assignments : List Assignment} {sim : SimState}
    (hlev : ∀ su ∈ ctx.subjects, su.level ≤ MAX_LEVEL)
    (hr : Reaches ctx assignments sim) : sim.cur_level ≤ MAX_LEVEL := by
  induction hr with
  | init sim hinit => exact (simulatorNew_good hinit).2.2 hlev
  | next sim fuel sim' n hr hstep ihp => exact (stepFn_level hstep).2 ihp

theorem stepLoop_terminates {ctx : Ctx} (hnd : (ctx.subjects.map (fun x => x.id)).Nodup) :
    ∀ (fuel : Nat) (sim : SimState) (acc : Nat),
      QInv sim → LevelInv ctx sim →
      2 * (dueCount sim + lockedCount ctx sim)
          + (if dueCount sim = 0 then 1 else 0) < fuel →
      (stepLoop ctx fuel sim acc).isSome = true := by
  intro fuel
  induction fuel with
  | zero =>
    intro sim acc _ _ hm
    split_ifs at hm <;> omega
  | succ fuel ih =>
    intro sim acc hQ hLvl hm
    simp only [stepLoop]
    cases hpop : popAvailableReview sim with
    | some pr =>
      obtain ⟨sid, sim1⟩ := pr
      show (match reviewSubject ctx sim1 sid with
        | none => some none
        | some sim2 => stepLoop ctx fuel sim2 (acc + 1)).isSome = true
      cases hrev : reviewSubject ctx sim1 sid with
      | none => rfl
      | some sim2 =>
        show (stepLoop ctx fuel sim2 (acc + 1)).isSome = true
        obtain ⟨t, st, hlook, hnext, hdue, hsim1eq, hz, hr, hdc⟩ := pop_spec hQ hpop
        subst hsim1eq
        have hlook1 : lookupState
            ({ sim with review_queue := removeEntry sim.review_queue (t, sid) }
              : SimState).subject_states sid = some st := hlook
        have hrest1 : ∀ u s, s ≠ sid →
            countEntry (removeEntry sim.review_queue (t, sid)) (u, s)
              = schedSpec sim.subject_states s u :=
          fun u s hs => (hr u s hs).trans (hQ u s)
        obtain ⟨hQ2, hL2, _, hcnt2⟩ := reviewSubject_spec hlook1 hz hrest1 hLvl hrev
        refine ih sim2 (acc + 1) hQ2 hL2 ?_
        have hch := hcnt2 hnd
        have hlocke : lockedCount ctx
            ({ sim with review_queue := removeEntry sim.review_queue (t, sid) } : SimState)
            = lockedCount ctx sim := rfl
        split_ifs at hm ⊢ <;> omega
    | none =>
      show (if (peekAvailableReview (checkLevelUp ctx sim)).isSome = true
        then stepLoop ctx fuel (checkLevelUp ctx sim) acc
        else some (some (checkLevelUp ctx sim, acc))).isSome = true
      obtain ⟨hQ2, hL2, _, hcnt2⟩ := checkLevelUp_spec hnd hQ hLvl
      by_cases hpeek : (peekAvailableReview (checkLevelUp ctx sim)).isSome = true
      · rw [if_pos hpeek]
        refine ih _ acc hQ2 hL2 ?_
        have hdue0 : dueCount sim = 0 := pop_none_due hpop
        have hdue2 : 1 ≤ dueCount (checkLevelUp ctx sim) := peek_isSome_due hpeek
        split_ifs at hm ⊢ <;> omega
      · rw [if_neg hpeek]
        rfl

theorem stepFn_terminates {ctx : Ctx} (hnd : (ctx.subjects.map (fun x => x.id)).Nodup)
    {sim : SimState} (hQ : QInv sim) (hLvl : LevelInv ctx sim) :
    ∃ r, stepFn ctx (2 * (dueCount sim + lockedCount ctx sim) + 2) sim = some r := by
  unfold stepFn
  by_cases hpeek : (peekAvailableReview sim).isSome = true
  · rw [if_pos hpeek]
    have hterm := stepLoop_terminates hnd (2 * (dueCount sim + lockedCount ctx sim) + 2)
      sim 0 hQ hLvl (by split_ifs <;> omega)
    cases hloop : stepLoop ctx (2 * (dueCount sim + lockedCount ctx sim) + 2) sim 0 with
    | none => rw [hloop] at hterm; simp at hterm
    | some r =>
      cases r with
      | none => exact ⟨none, rfl⟩
      | some pr =>
        obtain ⟨s', n'⟩ := pr
        exact ⟨some ({ s' with cur_step := s'.cur_step + 1 }, n'), rfl⟩
  · rw [if_neg hpeek]
    exact ⟨some ({ sim with cur_step := sim.cur_step + 1 }, 0), rfl⟩

theorem queue_entry_sched {sim : SimState} (hQ : QInv sim) {t s : Nat}
    (hmem : (t, s) ∈ sim.review_queue) :
    ∃ st, lookupState sim.subject_states s = some st ∧ st.next_review_time = some t := by
  have hcnt : 1 ≤ countEntry sim.review_queue (t, s) :=
    (countEntry_pos_iff_mem _ _).mpr hmem
  rw [hQ t s] at hcnt
  cases hl : lookupState sim.subject_states s with
  | none =>
    simp only [schedSpec, hl] at hcnt
    exact absurd hcnt (by decide)
  | some st =>
    simp only [schedSpec, hl] at hcnt
    refine ⟨st, rfl, ?_⟩
    by_contra hne
    rw [if_neg hne] at hcnt
    exact absurd hcnt (by decide)

theorem nodup_of_countEntry_le_one :
    ∀ {q : List (Nat × Nat)}, (∀ e, countEntry q e ≤ 1) → q.Nodup := by
  intro q
  induction q with
  | nil => intro _; simp
  | cons hd tl ih =>
    intro h
    rw [List.nodup_cons]
    constructor
    · intro hmem
      have h1 := h hd
      have h2 : 1 ≤ countEntry tl hd := (countEntry_pos_iff_mem _ _).mpr hmem
      have hrw : countEntry (hd :: tl) hd = 1 + countEntry tl hd := by
        show (if hd = hd then 1 else 0) + countEntry tl hd = 1 + countEntry tl hd
        rw [if_pos rfl]
      rw [hrw] at h1
      omega
    · refine ih (fun e => ?_)
      have he := h e
      simp only [countEntry] at he
      split_ifs at he <;> omega

theorem dueLocked_le_catalog {ctx : Ctx} {sim : SimState}
    (hnd : (ctx.subjects.map (fun x => x.id)).Nodup)
    (hQ : QInv sim) (hLvl : LevelInv ctx sim) :
    dueCount sim + lockedCount ctx sim ≤ ctx.subjects.length := by
  have hle1 : ∀ e : Nat × Nat, countEntry sim.review_queue e ≤ 1 := by
    intro e
    obtain ⟨t, s⟩ := e
    rw [hQ t s]
    unfold schedSpec
    split
    · split_ifs <;> omega
    · omega
  have hqnodup : sim.review_queue.Nodup := nodup_of_countEntry_le_one hle1
  have hdnodup : (sim.review_queue.filter (fun e => decide (e.1 ≤ sim.cur_step))).Nodup :=
    (List.filter_sublist sim.review_queue).nodup hqnodup
  have hmapnodup : ((sim.review_queue.filter
      (fun e => decide (e.1 ≤ sim.cur_step))).map (fun e => e.2)).Nodup := by
    refine List.Nodup.map_on ?_ hdnodup
    intro x hx y hy hxy
    have hxq : x ∈ sim.review_queue := List.mem_of_mem_filter hx
    have hyq : y ∈ sim.review_queue := List.mem_of_mem_filter hy
    obtain ⟨t1, s1⟩ := x
    obtain ⟨t2, s2⟩ := y
    have hss : s1 = s2 := hxy
    obtain ⟨st1, hl1, hn1⟩ := queue_entry_sched hQ hxq
    obtain ⟨st2, hl2, hn2⟩ := queue_entry_sched hQ hyq
    rw [← hss] at hl2
    rw [hl1] at hl2
    have hst : st1 = st2 := Option.some.inj hl2
    rw [← hst] at hn2
    rw [hn1] at hn2
    have ht : t1 = t2 := Option.some.inj hn2
    rw [ht, hss]
  have hsubset : ∀ z ∈ (sim.review_queue.filter
      (fun e => decide (e.1 ≤ sim.cur_step))).map (fun e => e.2),
      z ∈ (ctx.subjects.filter
        (fun su => containsState sim.subject_states su.id)).map (fun su => su.id) := by
    intro z hz
    rw [List.mem_map] at hz
    obtain ⟨e, he, hez⟩ := hz
    obtain ⟨t1, s1⟩ := e
    have heq : s1 = z := hez
    have hq : (t1, s1) ∈ sim.review_queue := List.mem_of_mem_filter he
    obtain ⟨st, hl, _⟩ := queue_entry_sched hQ hq
    obtain ⟨su, hfind, _⟩ := hLvl s1 st hl
    obtain ⟨hmem, hid⟩ := lookupSubject_mem_id hfind
    rw [List.mem_map]
    refine ⟨su, ?_, hid.trans heq⟩
    rw [List.mem_filter]
    refine ⟨hmem, ?_⟩
    unfold containsState
    rw [hid, hl]
    rfl
  have hsp := List.subperm_of_subset hmapnodup hsubset
  have hlen := hsp.length_le
  rw [List.length_map, List.length_map] at hlen
  have hpart : (ctx.subjects.filter
        (fun su => containsState sim.subject_states su.id)).length
      + lockedCount ctx sim = ctx.subjects.length :=
    filter_length_partition ctx.subjects (fun su => containsState sim.subject_states su.id)
  unfold dueCount
  omega

/-! ### Witness scaffolding: a tiny concrete catalog and run -/

/-- A one-subject catalog entry used in the concrete witnesses. -/
def wSubject : Subject := ⟨1, 1, SubjectKind.Kanji, [], [], Srs.Normal⟩

/-- A concrete context: every review outcome is the retired stage. -/
def wCtx : Ctx :=
  ⟨fun _ => StageProbabilityDistribution.new [(9, 1)], [wSubject], fun _ => 0⟩

/-- One assignment at Apprentice1, due at the base hour. -/
def wAssignments : List Assignment := [⟨1, 1, some 3600⟩]

/-- The state produced by initialization on the witness inputs. -/
def wSim : SimState := ⟨0, [(1, ⟨1, some 0⟩)], [(0, 1)], 1, [1], [1], 0⟩

/-- The state after one step: the subject was reviewed, burned, and the
level advanced. -/
def wSimBurned : SimState := ⟨1, [(1, ⟨9, none⟩)], [], 2, [], [], 1⟩

/-- The state after a further (empty) step. -/
def wSimBurned2 : SimState := ⟨2, [(1, ⟨9, none⟩)], [], 2, [], [], 1⟩

/-! ### Claim C5: the queue/state invariant -/

/-- C5 (confirmed).  In every reachable simulator state, every
pending-review queue entry names a subject present in the subject-state
table whose scheduled next availability equals the entry's step, and
conversely every subject with a scheduled next availability has a queue
entry at exactly that step. -/
theorem queue_matches_subject_states (ctx : Ctx) (assignments : List Assignment)
    (sim : SimState)
    (hnd : (ctx.subjects.map (fun x => x.id)).Nodup)
    (hr : Reaches ctx assignments sim) :
    (∀ t s, (t, s) ∈ sim.review_queue →
      ∃ st, lookupState sim.subject_states s = some st ∧
        st.next_review_time = some t) ∧
    (∀ s st t, lookupState sim.subject_states s = some st →
      st.next_review_time = some t → (t, s) ∈ sim.review_queue) := by
  obtain ⟨hQ, _⟩ := reaches_good hnd hr
  constructor
  · intro t s hmem
    exact queue_entry_sched hQ hmem
  · intro s st t hl hnext
    have hc : countEntry sim.review_queue (t, s) = 1 := by
      rw [hQ t s]
      simp only [schedSpec, hl, hnext]
      simp
    exact (countEntry_pos_iff_mem _ _).mp (by omega)

/-- Witness for C5 at a concrete reachable state. -/
theorem queue_matches_subject_states_witness :
    (∀ t s, (t, s) ∈ wSim.review_queue →
      ∃ st, lookupState wSim.subject_states s = some st ∧
        st.next_review_time = some t) ∧
    (∀ s st t, lookupState wSim.subject_states s = some st →
      st.next_review_time = some t → (t, s) ∈ wSim.review_queue) :=
  queue_matches_subject_states wCtx wAssignments wSim (by decide)
    (Reaches.init wSim (by decide))

/-! ### Claim C6: level monotonicity and bound -/

/-- C6 (confirmed).  The current level of a reachable state never
exceeds the maximum level (given the data-model constraint that catalog
levels are bounded by it), a step never decreases the level, and each
individual level advancement (the level-completion check) increases the
level by exactly one, never skipping. -/
theorem level_monotone_and_bounded (ctx : Ctx) (assignments : List Assignment)
    (sim : SimState)
    (hlev : ∀ su ∈ ctx.subjects, su.level ≤ MAX_LEVEL)
    (hr : Reaches ctx assignments sim) :
    sim.cur_level ≤ MAX_LEVEL ∧
    (∀ fuel sim' n, stepFn ctx fuel sim = some (some (sim', n)) →
      sim.cur_level ≤ sim'.cur_level) ∧
    (∀ sim0 : SimState, (checkLevelUp ctx sim0).cur_level = sim0.cur_level ∨
      (checkLevelUp ctx sim0).cur_level = sim0.cur_level + 1) := by
  refine ⟨reaches_level_le hlev hr, ?_, ?_⟩
  · intro fuel sim' n h
    exact (stepFn_level h).1
  · intro sim0
    exact (checkLevelUp_level ctx sim0).2.1

/-- Witness for C6 at a concrete reachable state. -/
theorem level_monotone_and_bounded_witness :
    wSim.cur_level ≤ MAX_LEVEL ∧
    (∀ fuel sim' n, stepFn wCtx fuel wSim = some (some (sim', n)) →
      wSim.cur_level ≤ sim'.cur_level) ∧
    (∀ sim0 : SimState, (checkLevelUp wCtx sim0).cur_level = sim0.cur_level ∨
      (checkLevelUp wCtx sim0).cur_level = sim0.cur_level + 1) :=
  level_monotone_and_bounded wCtx wAssignments wSim (by decide)
    (Reaches.init wSim (by decide))

/-! ### Claim C7: burned subjects stay burned -/

/-- C7 (confirmed).  Once a subject's availability is `none` (it reached
the terminal retired stage), a step leaves its state untouched and its
availability stays `none`; afterwards the queue holds no entry for it,
so it can never appear in a due set again. -/
theorem burned_never_rescheduled (ctx : Ctx) (assignments : List Assignment)
    (sim : SimState) (s : Nat) (st : SubjectState) (fuel : Nat) (sim' : SimState) (n : Nat)
    (hnd : (ctx.subjects.map (fun x => x.id)).Nodup)
    (hr : Reaches ctx assignments sim)
    (hs : lookupState sim.subject_states s = some st)
    (hnone : st.next_review_time = none)
    (hstep : stepFn ctx fuel sim = some (some (sim', n))) :
    lookupState sim'.subject_states s = some st ∧
    (∀ t, countEntry sim'.review_queue (t, s) = 0) := by
  obtain ⟨hQ, hL⟩ := reaches_good hnd hr
  obtain ⟨hQ', hL', hpres, _, _⟩ := stepFn_spec hnd hstep hQ hL
  have hs' := hpres s st hs hnone
  refine ⟨hs', ?_⟩
  intro t
  rw [hQ' t s]
  simp only [schedSpec, hs', hnone]
  simp

/-- Witness for C7 on a concrete run in which the subject gets burned. -/
theorem burned_never_rescheduled_witness :
    lookupState wSimBurned2.subject_states 1 = some ⟨9, none⟩ ∧
    (∀ t, countEntry wSimBurned2.review_queue (t, 1) = 0) :=
  burned_never_rescheduled wCtx wAssignments wSimBurned 1 ⟨9, none⟩ 1 wSimBurned2 0
    (by decide)
    (Reaches.next wSim 5 wSimBurned 1 (Reaches.init wSim (by decide)) (by decide))
    (by decide) (by decide) (by decide)

/-! ### Claim C8: unlocked subjects are level-bounded; the level pass
never overwrites -/

/-- C8 (confirmed).  In every reachable state every unlocked subject
resolves in the catalog with level at most the current level; as a
consequence the level-advance unlock pass never overwrites an existing
subject's state. -/
theorem unlocked_levels_bounded (ctx : Ctx) (assignments : List Assignment)
    (sim : SimState)
    (hnd : (ctx.subjects.map (fun x => x.id)).Nodup)
    (hr : Reaches ctx assignments sim) :
    (∀ s st, lookupState sim.subject_states s = some st →
      ∃ su, lookupSubject ctx s = some su ∧ su.level ≤ sim.cur_level) ∧
    (∀ s st, lookupState sim.subject_states s = some st →
      lookupState (checkLevelUp ctx sim).subject_states s = some st) := by
  obtain ⟨hQ, hL⟩ := reaches_good hnd hr
  exact ⟨hL, (checkLevelUp_spec hnd hQ hL).2.2.1⟩

/-- Witness for C8 at a concrete reachable state. -/
theorem unlocked_levels_bounded_witness :
    (∀ s st, lookupState wSim.subject_states s = some st →
      ∃ su, lookupSubject wCtx s = some su ∧ su.level ≤ wSim.cur_level) ∧
    (∀ s st, lookupState wSim.subject_states s = some st →
      lookupState (checkLevelUp wCtx wSim).subject_states s = some st) :=
  unlocked_levels_bounded wCtx wAssignments wSim (by decide)
    (Reaches.init wSim (by decide))

/-! ### Claim C10: step termination and the review-count bound -/

/-- C10 (confirmed).  Every non-terminal scheduling interval is at least
two hours; each `step` call from a reachable state terminates (an
explicit fuel bound derived from the queue and catalog suffices); and
the review count returned by a `step` call never exceeds the catalog
size. -/
theorem step_terminates_and_bounded (ctx : Ctx) (assignments : List Assignment)
    (sim : SimState)
    (hnd : (ctx.subjects.map (fun x => x.id)).Nodup)
    (hr : Reaches ctx assignments sim) :
    (∀ srs stage h, hoursToNextReview srs stage = some h → 2 ≤ h) ∧
    (∃ r, stepFn ctx (2 * (dueCount sim + lockedCount ctx sim) + 2) sim = some r) ∧
    (∀ fuel sim' n, stepFn ctx fuel sim = some (some (sim', n)) →
      n ≤ ctx.subjects.length) := by
  obtain ⟨hQ, hL⟩ := reaches_good hnd hr
  refine ⟨fun srs stage h hh => hoursToNextReview_ge_two hh,
    stepFn_terminates hnd hQ hL, ?_⟩
  intro fuel sim' n h
  obtain ⟨_, _, _, hn, _⟩ := stepFn_spec hnd h hQ hL
  have hb := dueLocked_le_catalog hnd hQ hL
  omega

/-- Witness for C10 at a concrete reachable state. -/
theorem step_terminates_and_bounded_witness :
    (∀ srs stage h, hoursToNextReview srs stage = some h → 2 ≤ h) ∧
    (∃ r, stepFn wCtx (2 * (dueCount wSim + lockedCount wCtx wSim) + 2) wSim = some r) ∧
    (∀ fuel sim' n, stepFn wCtx fuel wSim = some (some (sim', n)) →
      n ≤ wCtx.subjects.length) :=
  step_terminates_and_bounded wCtx wAssignments wSim (by decide)
    (Reaches.init wSim (by decide))
